import Mathlib

/-!
Verification development for the SvsAnon Aperio-label anonymizer
(`src/anonymizer.py`).

The open file is modelled as a list of byte values (`List Nat`, entries
intended `< 256`); every positional read or write of the source becomes a
pure function over that list.  Fallible operations return `Except Err`,
with one `Err` constructor per exception the Python code can raise.  The
unbounded `while True` directory walk is modelled with explicit fuel; the
spec-level (finite, null-terminated) chain is the inductive `Chain`.
-/

deriving instance DecidableEq for Except

set_option maxRecDepth 16000

namespace SvsAnon

/-- Errors of the source.  `notTiff` and `badBigHeader` model the two
`IOError`s of the header check (the spec's FormatError); `structError`
models `struct.error` on a truncated read; `unsupportedType` and
`notNullTerminated` model the two `ValueError`s of `TiffEntry.value`;
`indexError` models `items[-1]` on an empty tuple; `attributeError` and
`typeError` model the dynamic-type failures reachable in
`delete_aperio_label`; `labelNotStripped` (the spec's MissingStripInfo)
and `labelNotFound` are its two `IOError`s; `nonTermination` marks fuel
exhaustion of the modelled unbounded walk. -/
inductive Err where
  | notTiff
  | badBigHeader
  | structError
  | unsupportedType
  | notNullTerminated
  | indexError
  | attributeError
  | typeError
  | labelNotStripped
  | labelNotFound
  | nonTermination
  deriving DecidableEq, Repr

/-- TIFF type code ASCII (source constant). -/
def ASCII : Nat := 2

/-- TIFF type code SHORT (source constant). -/
def SHORT : Nat := 3

/-- TIFF type code LONG (source constant). -/
def LONG : Nat := 4

/-- TIFF type code LONG8 (source constant). -/
def LONG8 : Nat := 16

/-- Tag of the ImageDescription entry (source constant). -/
def IMAGE_DESCRIPTION : Nat := 270

/-- Tag of the StripOffsets entry (source constant). -/
def STRIP_OFFSETS : Nat := 273

/-- Tag of the StripByteCounts entry (source constant). -/
def STRIP_BYTE_COUNTS : Nat := 279

/-- Byte width of the mode-relative unsigned long `Z` of `_convert_format`:
`I` (4 bytes) on classic TIFF, `Q` (8 bytes) on BigTIFF. -/
def szZ (big : Bool) : Nat := if big then 8 else 4

/-- Byte width of the mode-relative unsigned short `Y` of `_convert_format`:
`H` (2 bytes) on classic TIFF, `Q` (8 bytes) on BigTIFF. -/
def szY (big : Bool) : Nat := if big then 8 else 2

/-- On-disk size of one directory entry, `fmt_size('HHZZ')`. -/
def entSize (big : Bool) : Nat := 2 + 2 + szZ big + szZ big

/-- Value of a little-endian digit string (least significant byte first). -/
def leVal : List Nat → Nat
  | [] => 0
  | b :: bs => b + 256 * leVal bs

/-- The `n` little-endian base-256 digits of `v`. -/
def leBytes : Nat → Nat → List Nat
  | 0, _ => []
  | n + 1, v => (v % 256) :: leBytes n (v / 256)

/-- `struct.unpack` of an unsigned integer with the resolved byte order. -/
def decodeNum (le : Bool) (bs : List Nat) : Nat :=
  leVal (if le then bs else bs.reverse)

/-- `struct.pack` of an unsigned integer into `n` bytes with the resolved
byte order. -/
def encodeNum (le : Bool) (n v : Nat) : List Nat :=
  if le then leBytes n v else (leBytes n v).reverse

/-- `self.read(n)` after `self.seek(off)`: yields at most `n` bytes,
fewer at end of file. -/
def readBytes (f : List Nat) (off n : Nat) : List Nat :=
  (f.drop off).take n

/-- `read_fmt` of a single `n`-byte unsigned integer at offset `off`:
`struct.unpack` raises (`structError`) unless exactly `n` bytes were read. -/
def readUInt (le : Bool) (f : List Nat) (off n : Nat) : Except Err Nat :=
  if (readBytes f off n).length = n then .ok (decodeNum le (readBytes f off n))
  else .error .structError

/-- `self.write(bs)` after `self.seek(off)`: overwrites in place, padding
with zero bytes if `off` lies beyond the current end of file. -/
def writeBytes (f : List Nat) (off : Nat) (bs : List Nat) : List Nat :=
  (f.take off ++ List.replicate (off - f.length) 0) ++ bs ++ f.drop (off + bs.length)

/-- One directory entry as read by `TiffEntry.__init__`:
`self.start = fh.tell()` followed by `read_fmt('HHZZ')`. -/
structure TiffEntry where
  start : Nat
  tag : Nat
  type : Nat
  count : Nat
  value_offset : Nat
  deriving DecidableEq, Repr

/-- `TiffEntry.__init__` at file position `pos` (the single
`read_fmt('HHZZ')` is split into its four fields; a truncation anywhere
in the window raises `structError` either way). -/
def parseEntry (big le : Bool) (f : List Nat) (pos : Nat) : Except Err TiffEntry := do
  let tag ← readUInt le f pos 2
  let ty ← readUInt le f (pos + 2) 2
  let cnt ← readUInt le f (pos + 4) (szZ big)
  let vo ← readUInt le f (pos + 4 + szZ big) (szZ big)
  return ⟨pos, tag, ty, cnt, vo⟩

/-- The `for _ in range(count)` entry loop of `TiffDirectory.__init__`. -/
def parseEntries (big le : Bool) (f : List Nat) : Nat → Nat → Except Err (List TiffEntry)
  | 0, _ => .ok []
  | n + 1, pos => do
    let e ← parseEntry big le f pos
    let rest ← parseEntries big le f n (pos + entSize big)
    return e :: rest

/-- `self.entries[entry.tag] = entry`: Python dict assignment, replacing
any earlier binding of the same tag. -/
def dictInsert (m : List (Nat × TiffEntry)) (e : TiffEntry) : List (Nat × TiffEntry) :=
  (m.filter fun kv => kv.1 ≠ e.tag) ++ [(e.tag, e)]

/-- The `entries` dict after inserting the on-disk entries in read order. -/
def buildDict (es : List TiffEntry) : List (Nat × TiffEntry) :=
  es.foldl dictInsert []

/-- `directory.entries[t]`, as an optional lookup (`KeyError` ↦ `none`). -/
def entLookup (m : List (Nat × TiffEntry)) (t : Nat) : Option TiffEntry :=
  (m.find? fun kv => kv.1 == t).map Prod.snd

/-- One IFD as built by `TiffDirectory.__init__`.  `off` records the file
position the directory was parsed from (`fh.tell()` on entry to
`__init__`, implicit in the source); `out_pointer_offset` is `fh.tell()`
after the last entry. -/
structure TiffDirectory where
  off : Nat
  in_pointer_offset : Nat
  entries : List (Nat × TiffEntry)
  out_pointer_offset : Nat
  deriving DecidableEq, Repr

/-- `TiffDirectory.__init__` for the directory at offset `doff`, whose
address was read from the pointer slot at `inPtr`. -/
def parseDir (big le : Bool) (f : List Nat) (doff inPtr : Nat) : Except Err TiffDirectory := do
  let cnt ← readUInt le f doff (szY big)
  let es ← parseEntries big le f cnt (doff + szY big)
  return ⟨doff, inPtr, buildDict es, doff + szY big + cnt * entSize big⟩

/-- The `while True` directory loop of `TiffFile.__init__`, with explicit
fuel standing in for the unbounded iteration. -/
def walkDirs (big le : Bool) (f : List Nat) : Nat → Nat → Except Err (List TiffDirectory)
  | 0, _ => .error .nonTermination
  | fuel + 1, pos => do
    let doff ← readUInt le f pos (szZ big)
    if doff = 0 then return []
    else do
      let d ← parseDir big le f doff pos
      let rest ← walkDirs big le f fuel d.out_pointer_offset
      return d :: rest

/-- Header resolution of `TiffFile.__init__` after the endianness marker:
version 42 selects classic mode, 43 requires the Big pair `(8, 0)`.
Returns `(little-endian?, bigtiff?, position after the header)`. -/
def parseVersion (le : Bool) (f : List Nat) : Except Err (Bool × Bool × Nat) := do
  let version ← readUInt le f 2 2
  if version = 42 then return (le, false, 4)
  else if version = 43 then do
    let magic2 ← readUInt le f 4 2
    let reserved ← readUInt le f 6 2
    if magic2 ≠ 8 ∨ reserved ≠ 0 then .error .badBigHeader
    else return (le, true, 8)
  else .error .notTiff

/-- Endianness-marker check of `TiffFile.__init__`: the two-byte read
equals `II` (little) or `MM` (big), anything else raises. -/
def parseHeader (f : List Nat) : Except Err (Bool × Bool × Nat) :=
  if readBytes f 0 2 = [73, 73] then parseVersion true f
  else if readBytes f 0 2 = [77, 77] then parseVersion false f
  else .error .notTiff

/-- The state of an open `TiffFile` after `__init__`. -/
structure TiffFile where
  le : Bool
  bigtiff : Bool
  directories : List TiffDirectory
  deriving DecidableEq, Repr

/-- `TiffFile.__init__`: resolve the header, then walk the chain. -/
def openTiff (fuel : Nat) (f : List Nat) : Except Err TiffFile := do
  let (le, big, pos0) ← parseHeader f
  let ds ← walkDirs big le f fuel pos0
  return ⟨le, big, ds⟩

/-- Per-item byte size of the supported type codes of `TiffEntry.value`
(`c`, `H`, `I`, `Q`); any other code raises `ValueError`. -/
def itemSize (ty : Nat) : Except Err Nat :=
  if ty = ASCII then .ok 1
  else if ty = SHORT then .ok 2
  else if ty = LONG then .ok 4
  else if ty = LONG8 then .ok 8
  else .error .unsupportedType

/-- A decoded entry value: a text (joined `c` items with the terminator
discarded) or a tuple of numbers. -/
inductive TVal where
  | str (s : List Nat)
  | nums (l : List Nat)
  deriving DecidableEq, Repr

/-- `struct.unpack('%d%s' % (count, item_fmt), ...)`: `count` items of
`isz` bytes each, in the resolved byte order. -/
def decodeSeq (le : Bool) (isz : Nat) : Nat → List Nat → List Nat
  | 0, _ => []
  | n + 1, bs => decodeNum le (bs.take isz) :: decodeSeq le isz n (bs.drop isz)

/-- The read-and-decode tail of `TiffEntry.value`, decoding `e.count`
items of `isz` bytes from absolute file offset `src`: the length check of
`struct.unpack`, then for ASCII the null-terminator check and join. -/
def decodeValueAt (le : Bool) (f : List Nat) (e : TiffEntry) (isz src : Nat) :
    Except Err TVal :=
  let len := e.count * isz
  let bs := readBytes f src len
  if bs.length = len then
    let items := decodeSeq le isz e.count bs
    if e.type = ASCII then
      match items.getLast? with
      | none => .error .indexError
      | some b => if b = 0 then .ok (.str items.dropLast) else .error .notNullTerminated
    else .ok (.nums items)
  else .error .structError

/-- `TiffEntry.value`: resolve the item size, then decode inline (from
`self.start + fmt_size('HHZ')`) when `count * item_size <= fmt_size('Z')`,
else out-of-line from the absolute offset held in the value slot. -/
def entryValue (big le : Bool) (f : List Nat) (e : TiffEntry) : Except Err TVal :=
  match itemSize e.type with
  | .error er => .error er
  | .ok isz =>
    let len := e.count * isz
    decodeValueAt le f e isz
      (if len ≤ szZ big then e.start + (2 + 2 + szZ big) else e.value_offset)

/-- Worker for `str.splitlines`: split at `\n`, `\r` and `\r\n`,
accumulating the current line reversed. -/
def splitlinesAux (cur : List Nat) : List Nat → List (List Nat)
  | [] => [cur.reverse]
  | 13 :: 10 :: rest => cur.reverse :: splitlinesAux [] rest
  | 13 :: rest => cur.reverse :: splitlinesAux [] rest
  | 10 :: rest => cur.reverse :: splitlinesAux [] rest
  | c :: rest => splitlinesAux (c :: cur) rest

/-- Python 2 `str.splitlines`: the final segment after a trailing line
break (and the whole of an empty string) yields no line. -/
def splitlines (s : List Nat) : List (List Nat) :=
  if s = [] then []
  else if s.getLast? = some 10 ∨ s.getLast? = some 13 then (splitlinesAux [] s).dropLast
  else splitlinesAux [] s

/-- The bytes of the literal `'Aperio'`. -/
def aperioPre : List Nat := [65, 112, 101, 114, 105, 111]

/-- The bytes of the literal `'label '`. -/
def labelPre : List Nat := [108, 97, 98, 101, 108, 32]

/-- The per-directory match test of `delete_aperio_label` (steps 1-3 of
the scan): missing tag 270 and failed heuristics yield `false`
(`continue`); decoding errors propagate; a numeric description raises
`AttributeError` (`tuple.startswith` does not exist). -/
def checkMatch (big le : Bool) (f : List Nat) (d : TiffDirectory) : Except Err Bool :=
  match entLookup d.entries IMAGE_DESCRIPTION with
  | none => .ok false
  | some e =>
    match entryValue big le f e with
    | .error er => .error er
    | .ok (.nums _) => .error .attributeError
    | .ok (.str desc) =>
      if ¬ aperioPre.isPrefixOf desc then .ok false
      else
        match splitlines desc with
        | _ :: line1 :: _ => if labelPre.isPrefixOf line1 then .ok true else .ok false
        | _ => .ok false

/-- `sys.getsizeof('\0' * n)` on CPython 2.7 / 64-bit: the `n` payload
bytes plus the 37-byte `str` object overhead (`sys.getsizeof('') == 37`).
This is what line 177 of the source accumulates into `write_size`. -/
def getsizeof (n : Nat) : Nat := n + 37

/-- The strip-wiping loop: for each positional `(offset, length)` pair,
seek to `offset`, overwrite `length` bytes with zero, and accumulate
`sys.getsizeof('\0' * length)` into the running total. -/
def wipeStrips (f : List Nat) (ws : Nat) : List (Nat × Nat) → List Nat × Nat
  | [] => (f, ws)
  | (off, len) :: rest =>
    wipeStrips (writeBytes f off (List.replicate len 0)) (ws + getsizeof len) rest

/-- A `TVal` as the sequence Python would iterate over (`zip` argument). -/
def seqLen : TVal → Nat
  | .str s => s.length
  | .nums l => l.length

/-- The body of `delete_aperio_label` once a directory has matched: fetch
strips (absence raises `labelNotStripped`, value errors propagate), wipe
them, read the next-directory pointer from the matched directory's out
slot, and (only when `delete_entry`) overwrite its in slot with that
value.  Returns the resulting file and the reported `write_size` or the
error raised. -/
def redactStep (big le : Bool) (delete_entry : Bool) (f : List Nat) (d : TiffDirectory) :
    List Nat × Except Err Nat :=
  match entLookup d.entries STRIP_OFFSETS with
  | none => (f, .error .labelNotStripped)
  | some eo =>
    match entryValue big le f eo with
    | .error er => (f, .error er)
    | .ok vo =>
      match entLookup d.entries STRIP_BYTE_COUNTS with
      | none => (f, .error .labelNotStripped)
      | some el =>
        match entryValue big le f el with
        | .error er => (f, .error er)
        | .ok vl =>
          match vo, vl with
          | .nums os, .nums ls =>
            let fw := wipeStrips f 0 (os.zip ls)
            (match readUInt le fw.1 d.out_pointer_offset (szZ big) with
             | .error er => (fw.1, .error er)
             | .ok out_pointer =>
               if delete_entry then
                 (writeBytes fw.1 d.in_pointer_offset (encodeNum le (szZ big) out_pointer),
                  .ok fw.2)
               else (fw.1, .ok fw.2))
          | vo, vl =>
            if seqLen vo = 0 ∨ seqLen vl = 0 then
              (match readUInt le f d.out_pointer_offset (szZ big) with
               | .error er => (f, .error er)
               | .ok out_pointer =>
                 if delete_entry then
                   (writeBytes f d.in_pointer_offset (encodeNum le (szZ big) out_pointer), .ok 0)
                 else (f, .ok 0))
            else (f, .error .typeError)

/-- The `for directory in fh.directories` scan of `delete_aperio_label`:
skip non-matching directories, redact the first match, and raise
`labelNotFound` when the loop's `else` is reached. -/
def delete_aperio_labelAux (big le : Bool) (delete_entry : Bool) (f : List Nat) :
    List TiffDirectory → List Nat × Except Err Nat
  | [] => (f, .error .labelNotFound)
  | d :: rest =>
    match checkMatch big le f d with
    | .error er => (f, .error er)
    | .ok false => delete_aperio_labelAux big le delete_entry f rest
    | .ok true => redactStep big le delete_entry f d

/-- `delete_aperio_label(filename, delete_entry)`: open the file (header
plus full directory walk), then scan and redact.  The returned list is
the file's final byte content; errors leave the bytes written so far. -/
def delete_aperio_label (fuel : Nat) (f : List Nat) (delete_entry : Bool) :
    List Nat × Except Err Nat :=
  match openTiff fuel f with
  | .error er => (f, .error er)
  | .ok t => delete_aperio_labelAux t.bigtiff t.le delete_entry f t.directories

/-- Membership of byte position `p` in the `(start, length)` range `a`. -/
def ival (a : Nat × Nat) (p : Nat) : Prop := a.1 ≤ p ∧ p < a.1 + a.2

/-- Disjointness of two `(start, length)` byte ranges. -/
def ivDisj (a b : Nat × Nat) : Prop := a.1 + a.2 ≤ b.1 ∨ b.1 + b.2 ≤ a.1

/-- The spec-level directory chain of a file: starting from the pointer
slot at `pos`, following links reaches a 0 link after finitely many
steps and yields exactly these directories in link order.  This is the
termination precondition of the unbounded directory walk. -/
inductive Chain (big le : Bool) (f : List Nat) : Nat → List TiffDirectory → Prop where
  | nil (pos : Nat) : readUInt le f pos (szZ big) = .ok 0 → Chain big le f pos []
  | cons (pos doff : Nat) (d : TiffDirectory) (ds : List TiffDirectory) :
      readUInt le f pos (szZ big) = .ok doff → doff ≠ 0 →
      parseDir big le f doff pos = .ok d →
      Chain big le f d.out_pointer_offset ds →
      Chain big le f pos (d :: ds)

/-- The byte positions a chain walk starting at slot `pos` reads: the slot
itself, and for each directory its parse region plus its own out slot. -/
def ChainReads (big : Bool) (pos : Nat) (ds : List TiffDirectory) (p : Nat) : Prop :=
  (pos ≤ p ∧ p < pos + szZ big) ∨
  ∃ e ∈ ds, e.off ≤ p ∧ p < e.out_pointer_offset + szZ big

/-- The ranges read while re-walking a strict prefix of the chain from
slot `pos`: each prefix directory's incoming pointer slot and parse
region (but not the slot after the last prefix directory). -/
def PreIvals (big : Bool) : List TiffDirectory → Nat → List (Nat × Nat)
  | [], _ => []
  | e :: t, pos =>
    (pos, szZ big) :: (e.off, e.out_pointer_offset - e.off) :: PreIvals big t e.out_pointer_offset

/-- The structural ranges of a parsed file: the fixed header, the first
pointer slot, and each directory's parse region together with its out
slot. -/
def structIvals (big : Bool) (pos0 : Nat) (ds : List TiffDirectory) : List (Nat × Nat) :=
  (0, pos0) :: (pos0, szZ big) :: ds.map fun e => (e.off, e.out_pointer_offset + szZ big - e.off)

/-- The structural ranges that survive unlinking the matched directory:
everything of `structIvals` except the matched directory's own region and
its incoming pointer slot (the slot the splice overwrites). -/
def survIvals (big : Bool) (pos0 : Nat) (pre post : List TiffDirectory) : List (Nat × Nat) :=
  (0, pos0) :: PreIvals big pre pos0
    ++ post.map fun e => (e.off, e.out_pointer_offset + szZ big - e.off)

/-- The directory list after splicing out the matched directory `d`: the
successor (if any) is now pointed to by the slot that pointed to `d`. -/
def spliceTail (d : TiffDirectory) : List TiffDirectory → List TiffDirectory
  | [] => []
  | e :: t => { e with in_pointer_offset := d.in_pointer_offset } :: t

/-- The absolute offset `TiffEntry.value` decodes an ASCII value from
(item size 1, so the threshold is the count itself). -/
def asciiSrc (big : Bool) (e : TiffEntry) : Nat :=
  if e.count ≤ szZ big then e.start + (2 + 2 + szZ big) else e.value_offset

/-- Little-endian encoding of a 16-bit value (file-construction helper). -/
def u16le (v : Nat) : List Nat := [v % 256, v / 256 % 256]

/-- Little-endian encoding of a 32-bit value (file-construction helper). -/
def u32le (v : Nat) : List Nat :=
  [v % 256, v / 256 % 256, v / 65536 % 256, v / 16777216 % 256]

/-- The description text of the spec's synthetic end-to-end file, with the
ASCII null terminator appended. -/
def synthDesc : List Nat :=
  ("Aperio Image\nlabel 12345x6789 (3x2)".toList.map Char.toNat) ++ [0]

/-- The spec's synthetic little-endian classic file: one directory (at
offset 8) whose `ImageDescription` matches the label heuristic,
`StripOffsets = [100]`, `StripByteCounts = [20]`, and 20 bytes of label
data `0xAB` at offsets 100..119. -/
def synthFile : List Nat :=
  [73, 73] ++ u16le 42 ++ u32le 8
  ++ u16le 3
  ++ u16le 270 ++ u16le 2 ++ u32le 36 ++ u32le 50
  ++ u16le 273 ++ u16le 4 ++ u32le 1 ++ u32le 100
  ++ u16le 279 ++ u16le 4 ++ u32le 1 ++ u32le 20
  ++ u32le 0
  ++ synthDesc
  ++ List.replicate 14 0
  ++ List.replicate 20 171

/-- A description matching the label heuristic (`'Aperio\nlabel x'`),
null-terminated: 15 bytes. -/
def wDesc : List Nat := ("Aperio\nlabel x".toList.map Char.toNat) ++ [0]

/-- Three-directory little-endian classic file: a non-matching directory
(tag 256), the matching label directory (strips: 8 bytes at offset 120),
and a trailing non-matching directory. -/
def wFile : List Nat :=
  [73, 73] ++ u16le 42 ++ u32le 8
  ++ u16le 1 ++ u16le 256 ++ u16le 3 ++ u32le 1 ++ u32le 10 ++ u32le 26
  ++ u16le 3
  ++ u16le 270 ++ u16le 2 ++ u32le 15 ++ u32le 68
  ++ u16le 273 ++ u16le 4 ++ u32le 1 ++ u32le 120
  ++ u16le 279 ++ u16le 4 ++ u32le 1 ++ u32le 8
  ++ u32le 90
  ++ wDesc
  ++ List.replicate 7 0
  ++ u16le 1 ++ u16le 256 ++ u16le 3 ++ u32le 1 ++ u32le 5 ++ u32le 0
  ++ List.replicate 12 0
  ++ List.replicate 8 205

/-- One-directory file whose single directory has no ImageDescription. -/
def noMatchFile : List Nat :=
  [73, 73] ++ u16le 42 ++ u32le 8
  ++ u16le 1 ++ u16le 259 ++ u16le 3 ++ u32le 1 ++ u32le 1 ++ u32le 0

/-- One matching directory carrying neither StripOffsets nor
StripByteCounts. -/
def w5File : List Nat :=
  [73, 73] ++ u16le 42 ++ u32le 8
  ++ u16le 1 ++ u16le 270 ++ u16le 2 ++ u32le 15 ++ u32le 26 ++ u32le 0
  ++ wDesc

/-- One matching directory with a StripOffsets entry of unsupported type 7
and no StripByteCounts entry. -/
def cx5File : List Nat :=
  [73, 73] ++ u16le 42 ++ u32le 8
  ++ u16le 2
  ++ u16le 270 ++ u16le 2 ++ u32le 15 ++ u32le 38
  ++ u16le 273 ++ u16le 7 ++ u32le 1 ++ u32le 0
  ++ u32le 0
  ++ wDesc

instance ivDisjDec (a b : Nat × Nat) : Decidable (ivDisj a b) :=
  if h : a.1 + a.2 ≤ b.1 ∨ b.1 + b.2 ≤ a.1 then .isTrue h else .isFalse h

instance ivalDec (a : Nat × Nat) (p : Nat) : Decidable (ival a p) :=
  if h : a.1 ≤ p ∧ p < a.1 + a.2 then .isTrue h else .isFalse h

/-- The single directory of `synthFile` as parsed. -/
def synthDir : TiffDirectory :=
  ⟨8, 4, [(270, ⟨10, 270, 2, 36, 50⟩), (273, ⟨22, 273, 4, 1, 100⟩),
    (279, ⟨34, 279, 4, 1, 20⟩)], 46⟩

/-- The first (non-matching) directory of `wFile` as parsed. -/
def wDir0 : TiffDirectory := ⟨8, 4, [(256, ⟨10, 256, 3, 1, 10⟩)], 22⟩

/-- The matching label directory of `wFile` as parsed. -/
def wDir1 : TiffDirectory :=
  ⟨26, 22, [(270, ⟨28, 270, 2, 15, 68⟩), (273, ⟨40, 273, 4, 1, 120⟩),
    (279, ⟨52, 279, 4, 1, 8⟩)], 64⟩

/-- The trailing (non-matching) directory of `wFile` as parsed. -/
def wDir2 : TiffDirectory := ⟨90, 64, [(256, ⟨92, 256, 3, 1, 5⟩)], 104⟩

/-- The StripOffsets entry of `wDir1`. -/
def wEo : TiffEntry := ⟨40, 273, 4, 1, 120⟩

/-- The StripByteCounts entry of `wDir1`. -/
def wEl : TiffEntry := ⟨52, 279, 4, 1, 8⟩

/-- The single directory of `cx5File` as parsed. -/
def cxDir : TiffDirectory :=
  ⟨8, 4, [(270, ⟨10, 270, 2, 15, 38⟩), (273, ⟨22, 273, 7, 1, 0⟩)], 34⟩

/-- The single directory of `w5File` as parsed. -/
def w5Dir : TiffDirectory := ⟨8, 4, [(270, ⟨10, 270, 2, 15, 26⟩)], 22⟩

/-- The single directory of `noMatchFile` as parsed. -/
def noMatchDir : TiffDirectory := ⟨8, 4, [(259, ⟨10, 259, 3, 1, 1⟩)], 22⟩

/-- Classic-mode boundary-test file: 4 inline bytes `[1,0,0,0]` at offset
8 and 8 out-of-line bytes `[2,0,0,0,0,0,0,0]` at offset 12. -/
def wC4File : List Nat := List.replicate 8 0 ++ [1, 0, 0, 0] ++ [2, 0, 0, 0, 0, 0, 0, 0]

/-- Classic LONG entry with `count * item_size = 4 =` slot width (inline). -/
def wC4EntryIn : TiffEntry := ⟨0, 273, 4, 1, 12⟩

/-- Classic LONG entry with `count * item_size = 8 >` slot width
(out-of-line). -/
def wC4EntryOut : TiffEntry := ⟨0, 273, 4, 2, 12⟩

/-- Big-mode boundary-test file: 8 inline bytes at offset 12 and 8 more
at offset 20. -/
def wC4File8 : List Nat :=
  List.replicate 12 0 ++ [3, 0, 0, 0, 0, 0, 0, 0] ++ [4, 0, 0, 0, 0, 0, 0, 0]

/-- Big LONG8 entry with `count * item_size = 8 =` slot width (inline);
its value slot holds a junk offset that inline decoding never reads. -/
def wC4EntryIn8 : TiffEntry := ⟨0, 273, 16, 1, 99⟩

/-- Big LONG8 entry with `count * item_size = 16 >` slot width. -/
def wC4EntryOut8 : TiffEntry := ⟨0, 273, 16, 2, 12⟩

/-- ASCII-roundtrip test file: bytes `'a' 'b' NUL` at the inline position
of `wC7Entry`. -/
def wC7File : List Nat := List.replicate 8 0 ++ [97, 98, 0]

/-- Like `wC7File` but the terminator byte is 5, not NUL. -/
def wC7BadFile : List Nat := List.replicate 8 0 ++ [97, 98, 5]

/-- An ASCII entry of count 3 decoding inline (3 ≤ 4). -/
def wC7Entry : TiffEntry := ⟨0, 270, 2, 3, 0⟩

/-! ### Basic byte-level lemmas -/

theorem readBytes_getElem? (f : List Nat) (off n k : Nat) (hk : k < n) :
    (readBytes f off n)[k]? = f[off + k]? := by
  unfold readBytes
  rw [List.getElem?_take_of_lt hk, List.getElem?_drop]

theorem readBytes_length_le (f : List Nat) (off n : Nat) :
    (readBytes f off n).length ≤ n := by
  simp [readBytes, List.length_take]

theorem readBytes_congr {f f2 : List Nat} {off n : Nat}
    (h : ∀ p, off ≤ p → p < off + n → f2[p]? = f[p]?) :
    readBytes f2 off n = readBytes f off n := by
  apply List.ext_getElem?
  intro k
  by_cases hk : k < n
  · rw [readBytes_getElem? _ _ _ _ hk, readBytes_getElem? _ _ _ _ hk]
    exact h (off + k) (Nat.le_add_right _ _) (by omega)
  · have h1 : (readBytes f2 off n).length ≤ k := le_trans (readBytes_length_le _ _ _) (by omega)
    have h2 : (readBytes f off n).length ≤ k := le_trans (readBytes_length_le _ _ _) (by omega)
    rw [List.getElem?_eq_none h1, List.getElem?_eq_none h2]

theorem readUInt_congr {f f2 : List Nat} {le : Bool} {off n : Nat}
    (h : ∀ p, off ≤ p → p < off + n → f2[p]? = f[p]?) :
    readUInt le f2 off n = readUInt le f off n := by
  unfold readUInt
  rw [readBytes_congr h]

theorem readUInt_ok_len {le : Bool} {f : List Nat} {off n v : Nat}
    (hn : 0 < n) (h : readUInt le f off n = .ok v) : off + n ≤ f.length := by
  unfold readUInt at h
  split at h
  next hlen =>
    simp only [readBytes, List.length_take, List.length_drop] at hlen
    omega
  next => exact absurd h (by simp)

theorem readBytes_sublist_mem {f : List Nat} {off n : Nat} {b : Nat}
    (hb : b ∈ readBytes f off n) : b ∈ f :=
  List.mem_of_mem_drop (List.mem_of_mem_take hb)

theorem writeBytes_pad_length (f : List Nat) (off : Nat) :
    (f.take off ++ List.replicate (off - f.length) 0).length = off := by
  simp [List.length_take]
  omega

theorem writeBytes_length (f : List Nat) (off : Nat) (bs : List Nat) :
    (writeBytes f off bs).length = max f.length (off + bs.length) := by
  unfold writeBytes
  rw [List.length_append, List.length_append, writeBytes_pad_length]
  simp
  omega

theorem writeBytes_getElem?_ge {f : List Nat} {off : Nat} {bs : List Nat} {p : Nat}
    (hp : off + bs.length ≤ p) :
    (writeBytes f off bs)[p]? = f[p]? := by
  unfold writeBytes
  have hlen : ((f.take off ++ List.replicate (off - f.length) 0) ++ bs).length = off + bs.length := by
    rw [List.length_append, writeBytes_pad_length]
  rw [List.getElem?_append_right (by omega), hlen, List.getElem?_drop]
  congr 1
  omega

theorem writeBytes_getElem?_lt {f : List Nat} {off : Nat} {bs : List Nat} {p : Nat}
    (hp : p < off) (hf : p < f.length) :
    (writeBytes f off bs)[p]? = f[p]? := by
  unfold writeBytes
  have h2 : p < (f.take off ++ List.replicate (off - f.length) 0).length := by
    rw [writeBytes_pad_length]
    omega
  have h1 : p < ((f.take off ++ List.replicate (off - f.length) 0) ++ bs).length := by
    rw [List.length_append]
    omega
  have h3 : p < (f.take off).length := by
    rw [List.length_take]
    omega
  rw [List.getElem?_append_left h1, List.getElem?_append_left h2,
    List.getElem?_append_left h3, List.getElem?_take_of_lt hp]

theorem writeBytes_getElem?_frame {f : List Nat} {off : Nat} {bs : List Nat} {p : Nat}
    (hf : p < f.length) (hout : ¬ (off ≤ p ∧ p < off + bs.length)) :
    (writeBytes f off bs)[p]? = f[p]? := by
  by_cases hp : p < off
  · exact writeBytes_getElem?_lt hp hf
  · exact writeBytes_getElem?_ge (by omega)

theorem writeBytes_readBack (f : List Nat) (off : Nat) (bs : List Nat) :
    readBytes (writeBytes f off bs) off bs.length = bs := by
  unfold writeBytes readBytes
  rw [List.append_assoc, List.drop_left' (writeBytes_pad_length f off),
    List.take_left' rfl]

theorem writeBytes_mem {f : List Nat} {off : Nat} {bs : List Nat} {b : Nat}
    (hb : b ∈ writeBytes f off bs) : b ∈ f ∨ b = 0 ∨ b ∈ bs := by
  unfold writeBytes at hb
  rcases List.mem_append.1 hb with h | h
  · rcases List.mem_append.1 h with h | h
    · rcases List.mem_append.1 h with h | h
      · exact Or.inl (List.mem_of_mem_take h)
      · exact Or.inr (Or.inl (List.eq_of_mem_replicate h))
    · exact Or.inr (Or.inr h)
  · exact Or.inl (List.mem_of_mem_drop h)

/-! ### Integer encoding lemmas -/

theorem leBytes_length (n v : Nat) : (leBytes n v).length = n := by
  induction n generalizing v with
  | zero => simp [leBytes]
  | succ n ih => simp [leBytes, ih]

theorem encodeNum_length (le : Bool) (n v : Nat) : (encodeNum le n v).length = n := by
  unfold encodeNum
  cases le <;> simp [leBytes_length]

theorem leVal_leBytes (n v : Nat) (h : v < 256 ^ n) : leVal (leBytes n v) = v := by
  induction n generalizing v with
  | zero => simp [pow_zero] at h; simp [leBytes, leVal]; omega
  | succ n ih =>
    have hdiv : v / 256 < 256 ^ n := by
      apply Nat.div_lt_of_lt_mul
      rw [pow_succ] at h
      omega
    simp [leBytes, leVal, ih (v / 256) hdiv]
    omega

theorem decodeNum_encodeNum (le : Bool) (n v : Nat) (h : v < 256 ^ n) :
    decodeNum le (encodeNum le n v) = v := by
  unfold decodeNum encodeNum
  cases le <;> simp [leVal_leBytes n v h]

theorem leVal_lt (bs : List Nat) (h : ∀ b ∈ bs, b < 256) : leVal bs < 256 ^ bs.length := by
  induction bs with
  | nil => simp [leVal]
  | cons b t ih =>
    have hb : b < 256 := h b (List.mem_cons_self _ _)
    have ht : leVal t < 256 ^ t.length := ih fun x hx => h x (List.mem_cons_of_mem _ hx)
    simp only [leVal, List.length_cons, pow_succ]
    calc b + 256 * leVal t < 256 + 256 * leVal t := by omega
    _ = 256 * (leVal t + 1) := by ring
    _ ≤ 256 * 256 ^ t.length := by
        apply Nat.mul_le_mul_left
        omega
    _ = 256 ^ t.length * 256 := by ring

theorem decodeNum_lt (le : Bool) (bs : List Nat) (h : ∀ b ∈ bs, b < 256) :
    decodeNum le bs < 256 ^ bs.length := by
  unfold decodeNum
  cases le
  · simpa using leVal_lt bs.reverse (by simpa using h)
  · simpa using leVal_lt bs h

theorem readUInt_lt {le : Bool} {f : List Nat} {off n v : Nat}
    (hf : ∀ b ∈ f, b < 256) (h : readUInt le f off n = .ok v) : v < 256 ^ n := by
  unfold readUInt at h
  split at h
  next hlen =>
    have hv : decodeNum le (readBytes f off n) = v := by simpa using h
    have hlt := decodeNum_lt le (readBytes f off n) fun b hb => hf b (readBytes_sublist_mem hb)
    rw [hlen, hv] at hlt
    exact hlt
  next => exact absurd h (by simp)

/-! ### Monad and size helper lemmas -/

theorem except_bind_ok {α β : Type} (a : α) (g : α → Except Err β) :
    (Except.ok a >>= g) = g a := rfl

theorem except_bind_error {α β : Type} (e : Err) (g : α → Except Err β) :
    ((Except.error e : Except Err α) >>= g) = .error e := rfl

theorem szZ_pos (big : Bool) : 0 < szZ big := by cases big <;> simp [szZ]

theorem szY_pos (big : Bool) : 0 < szY big := by cases big <;> simp [szY]

theorem entSize_eq (big : Bool) : entSize big = 4 + (szZ big + szZ big) := by
  simp [entSize]
  omega

/-! ### Parse congruence and bound lemmas -/

theorem parseEntry_congr {big le : Bool} {f f2 : List Nat} {pos : Nat}
    (h : ∀ p, pos ≤ p → p < pos + entSize big → f2[p]? = f[p]?) :
    parseEntry big le f2 pos = parseEntry big le f pos := by
  have hz := szZ_pos big
  have he := entSize_eq big
  unfold parseEntry
  rw [readUInt_congr fun p h1 h2 => h p h1 (by omega),
    readUInt_congr fun p h1 h2 => h p (by omega) (by omega),
    readUInt_congr fun p h1 h2 => h p (by omega) (by omega),
    readUInt_congr fun p h1 h2 => h p (by omega) (by omega)]

theorem parseEntries_congr {big le : Bool} {f f2 : List Nat} (n : Nat) : ∀ pos,
    (∀ p, pos ≤ p → p < pos + n * entSize big → f2[p]? = f[p]?) →
    parseEntries big le f2 n pos = parseEntries big le f n pos := by
  induction n with
  | zero => intro pos _; rfl
  | succ n ih =>
    intro pos h
    have hmul : (n + 1) * entSize big = n * entSize big + entSize big := Nat.succ_mul _ _
    unfold parseEntries
    rw [parseEntry_congr fun p h1 h2 => h p h1 (by omega),
      ih (pos + entSize big) fun p h1 h2 => h p (by omega) (by omega)]

theorem parseEntry_ok_len {big le : Bool} {f : List Nat} {pos : Nat} {e : TiffEntry}
    (h : parseEntry big le f pos = .ok e) : pos + entSize big ≤ f.length := by
  have hz := szZ_pos big
  have he := entSize_eq big
  unfold parseEntry at h
  cases h1 : readUInt le f pos 2 with
  | error er => rw [h1, except_bind_error] at h; exact absurd h (by simp)
  | ok tag =>
    rw [h1, except_bind_ok] at h
    cases h2 : readUInt le f (pos + 2) 2 with
    | error er => rw [h2, except_bind_error] at h; exact absurd h (by simp)
    | ok ty =>
      rw [h2, except_bind_ok] at h
      cases h3 : readUInt le f (pos + 4) (szZ big) with
      | error er => rw [h3, except_bind_error] at h; exact absurd h (by simp)
      | ok cnt =>
        rw [h3, except_bind_ok] at h
        cases h4 : readUInt le f (pos + 4 + szZ big) (szZ big) with
        | error er => rw [h4, except_bind_error] at h; exact absurd h (by simp)
        | ok vo =>
          have := readUInt_ok_len hz h4
          omega

theorem parseEntries_window_lt {big le : Bool} {f : List Nat} : ∀ (n pos : Nat)
    {es : List TiffEntry}, parseEntries big le f n pos = .ok es →
    ∀ p, pos ≤ p → p < pos + n * entSize big → p < f.length := by
  intro n
  induction n with
  | zero => intro pos es _ p hp1 hp2; omega
  | succ n ih =>
    intro pos es h p hp1 hp2
    have hmul : (n + 1) * entSize big = n * entSize big + entSize big := Nat.succ_mul _ _
    unfold parseEntries at h
    cases h1 : parseEntry big le f pos with
    | error er => rw [h1, except_bind_error] at h; exact absurd h (by simp)
    | ok e =>
      rw [h1, except_bind_ok] at h
      cases h2 : parseEntries big le f n (pos + entSize big) with
      | error er => rw [h2, except_bind_error] at h; exact absurd h (by simp)
      | ok rest =>
        have hlen := parseEntry_ok_len h1
        by_cases hc : p < pos + entSize big
        · omega
        · exact ih (pos + entSize big) h2 p (by omega) (by omega)

theorem parseDir_ok_out {big le : Bool} {f : List Nat} {doff ip : Nat} {d : TiffDirectory}
    (h : parseDir big le f doff ip = .ok d) :
    ∃ cnt es, readUInt le f doff (szY big) = .ok cnt ∧
      parseEntries big le f cnt (doff + szY big) = .ok es ∧
      d = ⟨doff, ip, buildDict es, doff + szY big + cnt * entSize big⟩ := by
  unfold parseDir at h
  cases h1 : readUInt le f doff (szY big) with
  | error er => rw [h1, except_bind_error] at h; exact absurd h (by simp)
  | ok cnt =>
    rw [h1, except_bind_ok] at h
    cases h2 : parseEntries big le f cnt (doff + szY big) with
    | error er => rw [h2, except_bind_error] at h; exact absurd h (by simp)
    | ok es =>
      rw [h2, except_bind_ok] at h
      refine ⟨cnt, es, rfl, h2, ?_⟩
      have h' : (Except.ok (⟨doff, ip, buildDict es,
          doff + szY big + cnt * entSize big⟩ : TiffDirectory) : Except Err TiffDirectory) =
          .ok d := h
      injection h' with h''
      exact h''.symm

theorem parseDir_off_le {big le : Bool} {f : List Nat} {doff ip : Nat} {d : TiffDirectory}
    (h : parseDir big le f doff ip = .ok d) :
    d.off = doff ∧ d.in_pointer_offset = ip ∧ d.off + szY big ≤ d.out_pointer_offset := by
  obtain ⟨cnt, es, _, _, hd⟩ := parseDir_ok_out h
  subst hd
  refine ⟨rfl, rfl, ?_⟩
  show doff + szY big ≤ doff + szY big + cnt * entSize big
  omega

theorem parseDir_congr {big le : Bool} {f f2 : List Nat} {doff ip : Nat} {d : TiffDirectory}
    (h : parseDir big le f doff ip = .ok d)
    (ha : ∀ p, doff ≤ p → p < d.out_pointer_offset → f2[p]? = f[p]?) :
    parseDir big le f2 doff ip = .ok d := by
  have hy := szY_pos big
  obtain ⟨cnt, es, h1, h2, hd⟩ := parseDir_ok_out h
  have hout : d.out_pointer_offset = doff + szY big + cnt * entSize big := by rw [hd]
  unfold parseDir
  rw [readUInt_congr fun p hp1 hp2 => ha p hp1 (by omega), h1, except_bind_ok,
    parseEntries_congr cnt (doff + szY big) (fun p hp1 hp2 => ha p (by omega) (by omega)),
    h2, except_bind_ok]
  rw [hd]
  rfl

theorem parseDir_window_lt {big le : Bool} {f : List Nat} {doff ip : Nat} {d : TiffDirectory}
    (h : parseDir big le f doff ip = .ok d) :
    ∀ p, d.off ≤ p → p < d.out_pointer_offset → p < f.length := by
  have hy := szY_pos big
  obtain ⟨cnt, es, h1, h2, hd⟩ := parseDir_ok_out h
  have hlen := readUInt_ok_len hy h1
  intro p hp1 hp2
  rw [hd] at hp1 hp2
  simp at hp1 hp2
  by_cases hc : p < doff + szY big
  · omega
  · exact parseEntries_window_lt cnt (doff + szY big) h2 p (by omega) (by omega)

theorem parseDir_inPtr {big le : Bool} {f : List Nat} {doff p1 p2 : Nat} {d : TiffDirectory}
    (h : parseDir big le f doff p1 = .ok d) :
    parseDir big le f doff p2 = .ok { d with in_pointer_offset := p2 } := by
  obtain ⟨cnt, es, h1, h2, hd⟩ := parseDir_ok_out h
  unfold parseDir
  rw [h1, except_bind_ok, h2, except_bind_ok, hd]
  rfl

/-! ### Chain and walk lemmas -/

theorem walkDirs_chain {big le : Bool} {f : List Nat} : ∀ (fuel : Nat) {pos : Nat}
    {ds : List TiffDirectory}, walkDirs big le f fuel pos = .ok ds → Chain big le f pos ds := by
  intro fuel
  induction fuel with
  | zero => intro pos ds h; exact absurd h (by simp [walkDirs])
  | succ fuel ih =>
    intro pos ds h
    unfold walkDirs at h
    cases h1 : readUInt le f pos (szZ big) with
    | error er => rw [h1, except_bind_error] at h; exact absurd h (by simp)
    | ok doff =>
      rw [h1, except_bind_ok] at h
      by_cases h0 : doff = 0
      · rw [if_pos h0] at h
        subst h0
        cases h
        exact Chain.nil pos h1
      · rw [if_neg h0] at h
        cases h2 : parseDir big le f doff pos with
        | error er => rw [h2, except_bind_error] at h; exact absurd h (by simp)
        | ok d =>
          rw [h2, except_bind_ok] at h
          cases h3 : walkDirs big le f fuel d.out_pointer_offset with
          | error er => rw [h3, except_bind_error] at h; exact absurd h (by simp)
          | ok rest =>
            rw [h3, except_bind_ok] at h
            cases h
            exact Chain.cons pos doff d rest h1 h0 h2 (ih h3)

theorem chain_walkDirs {big le : Bool} {f : List Nat} {pos : Nat} {ds : List TiffDirectory}
    (h : Chain big le f pos ds) :
    ∀ fuel, ds.length < fuel → walkDirs big le f fuel pos = .ok ds := by
  induction h with
  | nil pos hr =>
    intro fuel hf
    cases fuel with
    | zero => omega
    | succ fuel =>
      unfold walkDirs
      rw [hr, except_bind_ok, if_pos rfl]
      rfl
  | cons pos doff d ds hr hne hd hch ih =>
    intro fuel hf
    cases fuel with
    | zero => omega
    | succ fuel =>
      unfold walkDirs
      rw [hr, except_bind_ok, if_neg hne, hd, except_bind_ok,
        ih fuel (by simp at hf; omega), except_bind_ok]
      rfl

theorem walkDirs_fuel {big le : Bool} {f : List Nat} : ∀ {fuel pos : Nat}
    {ds : List TiffDirectory}, walkDirs big le f fuel pos = .ok ds → ds.length < fuel := by
  intro fuel
  induction fuel with
  | zero => intro pos ds h; exact absurd h (by simp [walkDirs])
  | succ fuel ih =>
    intro pos ds h
    unfold walkDirs at h
    cases h1 : readUInt le f pos (szZ big) with
    | error er => rw [h1, except_bind_error] at h; exact absurd h (by simp)
    | ok doff =>
      rw [h1, except_bind_ok] at h
      by_cases h0 : doff = 0
      · rw [if_pos h0] at h
        cases h
        simp
      · rw [if_neg h0] at h
        cases h2 : parseDir big le f doff pos with
        | error er => rw [h2, except_bind_error] at h; exact absurd h (by simp)
        | ok d =>
          rw [h2, except_bind_ok] at h
          cases h3 : walkDirs big le f fuel d.out_pointer_offset with
          | error er => rw [h3, except_bind_error] at h; exact absurd h (by simp)
          | ok rest =>
            rw [h3, except_bind_ok] at h
            cases h
            have := ih h3
            simp
            omega

theorem chain_slot_len {big le : Bool} {f : List Nat} {pos : Nat} {ds : List TiffDirectory}
    (h : Chain big le f pos ds) : pos + szZ big ≤ f.length := by
  cases h with
  | nil _ hr => exact readUInt_ok_len (szZ_pos big) hr
  | cons _ doff d ds hr _ _ _ => exact readUInt_ok_len (szZ_pos big) hr

theorem chain_in_ptr {big le : Bool} {f : List Nat} {pos : Nat} {d : TiffDirectory}
    {ds : List TiffDirectory} (h : Chain big le f pos (d :: ds)) :
    d.in_pointer_offset = pos ∧ d.off + szY big ≤ d.out_pointer_offset := by
  cases h with
  | cons _ doff _ _ hr hne hd hch =>
    obtain ⟨_, h2, h3⟩ := parseDir_off_le hd
    exact ⟨h2, h3⟩

theorem chain_reads_lt {big le : Bool} {f : List Nat} {pos : Nat} {ds : List TiffDirectory}
    (h : Chain big le f pos ds) : ∀ p, ChainReads big pos ds p → p < f.length := by
  induction h with
  | nil pos hr =>
    intro p hp
    rcases hp with ⟨h1, h2⟩ | ⟨e, he, _⟩
    · have := readUInt_ok_len (szZ_pos big) hr
      omega
    · exact absurd he (List.not_mem_nil e)
  | cons pos doff d ds hr hne hd hch ih =>
    intro p hp
    have hslot := readUInt_ok_len (szZ_pos big) hr
    have htail := chain_slot_len hch
    obtain ⟨hoff, _, _⟩ := parseDir_off_le hd
    rcases hp with ⟨h1, h2⟩ | ⟨e, he, h1, h2⟩
    · omega
    · rcases List.mem_cons.1 he with rfl | he
      · by_cases hc : p < e.out_pointer_offset
        · exact parseDir_window_lt hd p h1 hc
        · omega
      · exact ih p (Or.inr ⟨e, he, h1, h2⟩)

theorem chain_congr {big le : Bool} {f f2 : List Nat} {pos : Nat} {ds : List TiffDirectory}
    (h : Chain big le f pos ds)
    (ha : ∀ p, ChainReads big pos ds p → f2[p]? = f[p]?) : Chain big le f2 pos ds := by
  induction h with
  | nil pos hr =>
    refine Chain.nil pos ?_
    rw [readUInt_congr fun p h1 h2 => ha p (Or.inl ⟨h1, h2⟩)]
    exact hr
  | cons pos doff d ds hr hne hd hch ih =>
    have hz := szZ_pos big
    obtain ⟨hoff, hip, hle⟩ := parseDir_off_le hd
    refine Chain.cons pos doff d ds ?_ hne ?_ ?_
    · rw [readUInt_congr fun p h1 h2 => ha p (Or.inl ⟨h1, h2⟩)]
      exact hr
    · refine parseDir_congr hd fun p h1 h2 => ha p ?_
      exact Or.inr ⟨d, List.mem_cons_self _ _, by omega, by omega⟩
    · refine ih fun p hp => ha p ?_
      rcases hp with ⟨h1, h2⟩ | ⟨e, he, h1, h2⟩
      · exact Or.inr ⟨d, List.mem_cons_self _ _, by omega, by omega⟩
      · exact Or.inr ⟨e, List.mem_cons_of_mem _ he, h1, h2⟩

/-! ### Wipe-loop lemmas -/

theorem wipeStrips_length {p : Nat} : ∀ (pairs : List (Nat × Nat)) (f : List Nat) (ws : Nat),
    p < f.length → p < (wipeStrips f ws pairs).1.length := by
  intro pairs
  induction pairs with
  | nil => intro f ws h; exact h
  | cons ol rest ih =>
    intro f ws h
    obtain ⟨off, len⟩ := ol
    unfold wipeStrips
    apply ih
    rw [writeBytes_length]
    omega

theorem wipeStrips_getElem?_frame {p : Nat} : ∀ (pairs : List (Nat × Nat)) (f : List Nat)
    (ws : Nat), p < f.length → (∀ ol ∈ pairs, ¬ (ol.1 ≤ p ∧ p < ol.1 + ol.2)) →
    (wipeStrips f ws pairs).1[p]? = f[p]? := by
  intro pairs
  induction pairs with
  | nil => intro f ws _ _; rfl
  | cons ol rest ih =>
    intro f ws hf h
    obtain ⟨off, len⟩ := ol
    unfold wipeStrips
    have hout := h (off, len) (List.mem_cons_self _ _)
    simp only [List.length_replicate] at *
    rw [ih (writeBytes f off (List.replicate len 0)) _
        (by rw [writeBytes_length]; omega)
        (fun x hx => h x (List.mem_cons_of_mem _ hx))]
    exact writeBytes_getElem?_frame hf (by simpa using hout)

/-! ### Header lemmas -/

theorem except_pure_eq_ok {α : Type} {x y : α} (h : (pure x : Except Err α) = .ok y) :
    x = y := by
  injection h

theorem parseVersion_ok_elim {le : Bool} {f : List Nat} {r : Bool × Bool × Nat}
    (h : parseVersion le f = .ok r) :
    r.1 = le ∧ r.2.2 = (if r.2.1 then 8 else 4) ∧ r.2.2 ≤ f.length ∧
    (r.2.1 = false → readUInt le f 2 2 = .ok 42) ∧
    (r.2.1 = true → readUInt le f 2 2 = .ok 43 ∧ readUInt le f 4 2 = .ok 8 ∧
      readUInt le f 6 2 = .ok 0) := by
  unfold parseVersion at h
  cases h1 : readUInt le f 2 2 with
  | error er => rw [h1, except_bind_error] at h; exact absurd h (by simp)
  | ok v =>
    rw [h1, except_bind_ok] at h
    have hlen : (2 : Nat) + 2 ≤ f.length := readUInt_ok_len (by norm_num) h1
    by_cases h42 : v = 42
    · rw [if_pos h42] at h
      have hr := except_pure_eq_ok h
      subst hr
      subst h42
      refine ⟨rfl, by simp, ?_, fun _ => rfl, fun hb => by simp at hb⟩
      show (4 : Nat) ≤ f.length
      omega
    · rw [if_neg h42] at h
      by_cases h43 : v = 43
      · rw [if_pos h43] at h
        cases h2 : readUInt le f 4 2 with
        | error er => rw [h2, except_bind_error] at h; exact absurd h (by simp)
        | ok m2 =>
          rw [h2, except_bind_ok] at h
          cases h3 : readUInt le f 6 2 with
          | error er => rw [h3, except_bind_error] at h; exact absurd h (by simp)
          | ok res =>
            rw [h3, except_bind_ok] at h
            by_cases hcond : m2 ≠ 8 ∨ res ≠ 0
            · rw [if_pos hcond] at h; exact absurd h (by simp)
            · rw [if_neg hcond] at h
              push_neg at hcond
              obtain ⟨hm2, hres⟩ := hcond
              have hlen8 : (6 : Nat) + 2 ≤ f.length := readUInt_ok_len (by norm_num) h3
              have hr := except_pure_eq_ok h
              subst hr
              subst h43 hm2 hres
              refine ⟨rfl, by simp, ?_, fun hb => by simp at hb, fun _ => ⟨rfl, rfl, rfl⟩⟩
              show (8 : Nat) ≤ f.length
              omega
      · rw [if_neg h43] at h
        exact absurd h (by simp)

theorem parseVersion_congr {le : Bool} {f f2 : List Nat} {r : Bool × Bool × Nat}
    (h : parseVersion le f = .ok r) (ha : ∀ p, p < r.2.2 → f2[p]? = f[p]?) :
    parseVersion le f2 = .ok r := by
  obtain ⟨hle, hpos, hlen, hclassic, hbig⟩ := parseVersion_ok_elim h
  unfold parseVersion
  cases hb : r.2.1 with
  | false =>
    rw [hb] at hpos
    simp only [Bool.false_eq_true, if_false] at hpos
    have h1 := hclassic hb
    rw [readUInt_congr fun p hp1 hp2 => ha p (by omega), h1, except_bind_ok, if_pos rfl]
    have hr : r = (le, false, 4) := by
      obtain ⟨a, b, c⟩ := r
      simp only at hle hpos hb
      rw [hle, hpos, hb]
    rw [hr]
    rfl
  | true =>
    rw [hb] at hpos
    simp only [if_true] at hpos
    obtain ⟨h1, h2, h3⟩ := hbig hb
    rw [readUInt_congr fun p hp1 hp2 => ha p (by omega), h1, except_bind_ok]
    rw [if_neg (by norm_num), if_pos rfl]
    rw [readUInt_congr fun p hp1 hp2 => ha p (by omega), h2, except_bind_ok]
    rw [readUInt_congr fun p hp1 hp2 => ha p (by omega), h3, except_bind_ok]
    rw [if_neg (by simp)]
    have hr : r = (le, true, 8) := by
      obtain ⟨a, b, c⟩ := r
      simp only at hle hpos hb
      rw [hle, hpos, hb]
    rw [hr]
    rfl

theorem parseHeader_ok_elim {f : List Nat} {r : Bool × Bool × Nat}
    (h : parseHeader f = .ok r) :
    r.2.2 = (if r.2.1 then 8 else 4) ∧ r.2.2 ≤ f.length ∧
    (r.1 = true → readBytes f 0 2 = [73, 73]) ∧
    (r.1 = false → readBytes f 0 2 = [77, 77]) := by
  unfold parseHeader at h
  by_cases hm : readBytes f 0 2 = [73, 73]
  · rw [if_pos hm] at h
    obtain ⟨hle, hpos, hlen, _, _⟩ := parseVersion_ok_elim h
    exact ⟨hpos, hlen, fun _ => hm, fun hf => by rw [hle] at hf; simp at hf⟩
  · rw [if_neg hm] at h
    by_cases hm2 : readBytes f 0 2 = [77, 77]
    · rw [if_pos hm2] at h
      obtain ⟨hle, hpos, hlen, _, _⟩ := parseVersion_ok_elim h
      exact ⟨hpos, hlen, fun ht => by rw [hle] at ht; simp at ht, fun _ => hm2⟩
    · rw [if_neg hm2] at h
      exact absurd h (by simp)

theorem parseHeader_congr {f f2 : List Nat} {r : Bool × Bool × Nat}
    (h : parseHeader f = .ok r) (ha : ∀ p, p < r.2.2 → f2[p]? = f[p]?) :
    parseHeader f2 = .ok r := by
  obtain ⟨hpos, hlen, hII, hMM⟩ := parseHeader_ok_elim h
  have hpos2 : 2 ≤ r.2.2 := by
    cases hb : r.2.1 with
    | false => rw [hb] at hpos; simp at hpos; omega
    | true => rw [hb] at hpos; simp at hpos; omega
  have hmarker : readBytes f2 0 2 = readBytes f 0 2 :=
    readBytes_congr fun p hp1 hp2 => ha p (by omega)
  unfold parseHeader at h ⊢
  rw [hmarker]
  by_cases hm : readBytes f 0 2 = [73, 73]
  · rw [if_pos hm] at h ⊢
    exact parseVersion_congr h ha
  · rw [if_neg hm] at h ⊢
    by_cases hm2 : readBytes f 0 2 = [77, 77]
    · rw [if_pos hm2] at h ⊢
      exact parseVersion_congr h ha
    · rw [if_neg hm2] at h
      exact absurd h (by simp)

theorem openTiff_ok {fuel : Nat} {f : List Nat} {le big : Bool} {pos0 : Nat}
    {ds : List TiffDirectory}
    (h1 : parseHeader f = .ok (le, big, pos0))
    (h2 : walkDirs big le f fuel pos0 = .ok ds) :
    openTiff fuel f = .ok ⟨le, big, ds⟩ := by
  unfold openTiff
  rw [h1, except_bind_ok]
  dsimp only
  rw [h2, except_bind_ok]
  rfl

/-! ### Redaction pipeline lemmas -/

theorem aux_skip {big le de : Bool} {f : List Nat} : ∀ (pre rest : List TiffDirectory),
    (∀ x ∈ pre, checkMatch big le f x = .ok false) →
    delete_aperio_labelAux big le de f (pre ++ rest) =
      delete_aperio_labelAux big le de f rest := by
  intro pre
  induction pre with
  | nil => intro rest _; rfl
  | cons d t ih =>
    intro rest h
    have hd := h d (List.mem_cons_self _ _)
    rw [List.cons_append]
    simp only [delete_aperio_labelAux, hd]
    exact ih rest fun x hx => h x (List.mem_cons_of_mem _ hx)

/-! ### Interval lemmas and splice machinery -/

theorem ivDisj_not {a b : Nat × Nat} {p : Nat} (h : ivDisj a b) (hp : ival b p) :
    ¬ ival a p := by
  dsimp only [ivDisj, ival] at *
  omega

theorem chain_dirs_wf {big le : Bool} {f : List Nat} {pos : Nat} {ds : List TiffDirectory}
    (h : Chain big le f pos ds) :
    ∀ e ∈ ds, e.off + szY big ≤ e.out_pointer_offset := by
  induction h with
  | nil => simp
  | cons pos doff d ds hr hne hd hch ih =>
    intro e he
    rcases List.mem_cons.1 he with rfl | he
    · exact (parseDir_off_le hd).2.2
    · exact ih e he

theorem chain_suffix {big le : Bool} {f : List Nat} : ∀ (pre : List TiffDirectory)
    {pos : Nat} {rest : List TiffDirectory}, Chain big le f pos (pre ++ rest) →
    ∃ pos2, Chain big le f pos2 rest := by
  intro pre
  induction pre with
  | nil => intro pos rest h; exact ⟨pos, h⟩
  | cons e t ih =>
    intro pos rest h
    cases h with
    | cons _ _ _ _ _ _ _ hsub => exact ih hsub

theorem preIvals_sub {big le : Bool} {f : List Nat} : ∀ (pre : List TiffDirectory)
    {rest : List TiffDirectory} {pos : Nat}, Chain big le f pos (pre ++ rest) →
    ∀ iv ∈ PreIvals big pre pos, ∀ p, ival iv p → ChainReads big pos (pre ++ rest) p := by
  intro pre
  induction pre with
  | nil => intro rest pos _ iv hiv; exact absurd hiv (List.not_mem_nil iv)
  | cons e t ih =>
    intro rest pos hch iv hiv p hp
    cases hch with
    | cons _ doff _ _ hr hne hd hsub =>
      obtain ⟨hoff, hip, hle⟩ := parseDir_off_le hd
      have hz := szZ_pos big
      unfold PreIvals at hiv
      rcases List.mem_cons.1 hiv with rfl | hiv
      · dsimp only [ival] at hp
        exact Or.inl hp
      · rcases List.mem_cons.1 hiv with rfl | hiv
        · dsimp only [ival] at hp
          exact Or.inr ⟨e, List.mem_cons_self _ _, by omega, by omega⟩
        · have := ih hsub iv hiv p hp
          rcases this with ⟨h1, h2⟩ | ⟨x, hx, h1, h2⟩
          · exact Or.inr ⟨e, List.mem_cons_self _ _, by omega, by omega⟩
          · exact Or.inr ⟨x, List.mem_cons_of_mem _ hx, h1, h2⟩

theorem chainReads_struct {big : Bool} {pos0 : Nat} {ds : List TiffDirectory}
    (hwf : ∀ e ∈ ds, e.off + szY big ≤ e.out_pointer_offset) {p : Nat}
    (hp : ChainReads big pos0 ds p) :
    ∃ iv ∈ structIvals big pos0 ds, ival iv p := by
  have hz := szZ_pos big
  rcases hp with ⟨h1, h2⟩ | ⟨e, he, h1, h2⟩
  · refine ⟨(pos0, szZ big), ?_, ?_⟩
    · simp [structIvals]
    · dsimp only [ival]; omega
  · have := hwf e he
    refine ⟨(e.off, e.out_pointer_offset + szZ big - e.off), ?_, ?_⟩
    · simp only [structIvals, List.mem_cons, List.mem_map]
      exact Or.inr (Or.inr ⟨e, he, rfl⟩)
    · dsimp only [ival]
      omega

theorem structIvals_lt {big le : Bool} {f : List Nat} {pos0 : Nat} {ds : List TiffDirectory}
    (hch : Chain big le f pos0 ds) (hpos : pos0 ≤ f.length) {p : Nat}
    (h : ∃ iv ∈ structIvals big pos0 ds, ival iv p) : p < f.length := by
  obtain ⟨iv, hiv, hp⟩ := h
  simp only [structIvals, List.mem_cons, List.mem_map] at hiv
  have hz := szZ_pos big
  rcases hiv with rfl | rfl | ⟨e, he, rfl⟩
  · dsimp only [ival] at hp
    omega
  · dsimp only [ival] at hp
    exact chain_reads_lt hch p (Or.inl hp)
  · dsimp only [ival] at hp
    have hwf := chain_dirs_wf hch e he
    exact chain_reads_lt hch p (Or.inr ⟨e, he, by omega, by omega⟩)

theorem redactStep_eq {big le : Bool} {f : List Nat} {d : TiffDirectory}
    {eo el : TiffEntry} {os ls : List Nat} {v : Nat} (de : Bool)
    (heo : entLookup d.entries STRIP_OFFSETS = some eo)
    (hvo : entryValue big le f eo = .ok (.nums os))
    (hel : entLookup d.entries STRIP_BYTE_COUNTS = some el)
    (hvl : entryValue big le f el = .ok (.nums ls))
    (hop : readUInt le (wipeStrips f 0 (os.zip ls)).1 d.out_pointer_offset (szZ big) = .ok v) :
    redactStep big le de f d =
      ((if de then
          writeBytes (wipeStrips f 0 (os.zip ls)).1 d.in_pointer_offset
            (encodeNum le (szZ big) v)
        else (wipeStrips f 0 (os.zip ls)).1),
       .ok (wipeStrips f 0 (os.zip ls)).2) := by
  simp only [redactStep, heo, hvo, hel, hvl, hop]
  cases de <;> rfl

theorem redactStep_missing {big le de : Bool} {f : List Nat} {d : TiffDirectory}
    (h : entLookup d.entries STRIP_OFFSETS = none ∨
      (∃ eo vo, entLookup d.entries STRIP_OFFSETS = some eo ∧
        entryValue big le f eo = .ok vo ∧
        entLookup d.entries STRIP_BYTE_COUNTS = none)) :
    redactStep big le de f d = (f, .error .labelNotStripped) := by
  rcases h with h | ⟨eo, vo, h1, h2, h3⟩
  · simp only [redactStep, h]
  · simp only [redactStep, h1, h2, h3]

theorem chain_splice {big le : Bool} {f f2 : List Nat} {d : TiffDirectory}
    {post newTail : List TiffDirectory} :
    ∀ (pre : List TiffDirectory) (pos : Nat),
    Chain big le f pos (pre ++ d :: post) →
    (∀ iv ∈ PreIvals big pre pos, ∀ p, ival iv p → f2[p]? = f[p]?) →
    Chain big le f2 d.in_pointer_offset newTail →
    Chain big le f2 pos (pre ++ newTail) := by
  intro pre
  induction pre with
  | nil =>
    intro pos hch _ htail
    have hip := (chain_in_ptr hch).1
    rw [List.nil_append]
    rw [← hip]
    exact htail
  | cons e t ih =>
    intro pos hch ha htail
    cases hch with
    | cons _ doff _ _ hr hne hd hsub =>
      obtain ⟨hoff, hip, hle⟩ := parseDir_off_le hd
      refine Chain.cons pos doff e (t ++ newTail) ?_ hne ?_ ?_
      · rw [readUInt_congr fun p h1 h2 =>
          ha (pos, szZ big) (by simp [PreIvals]) p (by dsimp only [ival]; omega)]
        exact hr
      · refine parseDir_congr hd fun p h1 h2 =>
          ha (e.off, e.out_pointer_offset - e.off) (by simp [PreIvals]) p ?_
        dsimp only [ival]
        omega
      · refine ih e.out_pointer_offset hsub (fun iv hiv p hp => ha iv ?_ p hp) htail
        unfold PreIvals
        exact List.mem_cons_of_mem _ (List.mem_cons_of_mem _ hiv)

/-- C2: on a well-separated file (strips disjoint from all structural
ranges, the spliced slot disjoint from every surviving structural range,
directory offsets distinct), redaction with the unlink flag writes the
prior value of the matched directory's `out_pointer_offset` slot into its
`in_pointer_offset` slot, and re-walking the chain afterwards yields
exactly the directories before the match followed by the directories
after it (the successor now reached through the splice slot), in their
original order, never the matched directory itself. -/
theorem claim_C2_unlink_rewalk
    {fuel : Nat} {f : List Nat} {le big : Bool} {pos0 : Nat}
    {pre post : List TiffDirectory} {d : TiffDirectory}
    {eo el : TiffEntry} {os ls : List Nat}
    (hbytes : ∀ b ∈ f, b < 256)
    (hdr : parseHeader f = .ok (le, big, pos0))
    (hwalk : walkDirs big le f fuel pos0 = .ok (pre ++ d :: post))
    (hpre : ∀ x ∈ pre, checkMatch big le f x = .ok false)
    (hmatch : checkMatch big le f d = .ok true)
    (heo : entLookup d.entries STRIP_OFFSETS = some eo)
    (hvo : entryValue big le f eo = .ok (.nums os))
    (hel : entLookup d.entries STRIP_BYTE_COUNTS = some el)
    (hvl : entryValue big le f el = .ok (.nums ls))
    (hstr : ∀ ol ∈ os.zip ls, ∀ iv ∈ structIvals big pos0 (pre ++ d :: post), ivDisj ol iv)
    (hspl : ∀ iv ∈ survIvals big pos0 pre post, ivDisj (d.in_pointer_offset, szZ big) iv)
    (hoffs : ∀ x ∈ pre ++ post, x.off ≠ d.off) :
    readUInt le (delete_aperio_label fuel f true).1 d.in_pointer_offset (szZ big) =
      readUInt le f d.out_pointer_offset (szZ big) ∧
    openTiff fuel (delete_aperio_label fuel f true).1 =
      .ok ⟨le, big, pre ++ spliceTail d post⟩ ∧
    ∀ x ∈ pre ++ spliceTail d post, x ≠ d := by
  have hz := szZ_pos big
  have hch : Chain big le f pos0 (pre ++ d :: post) := walkDirs_chain fuel hwalk
  have hwf := chain_dirs_wf hch
  have hmemd : d ∈ pre ++ d :: post :=
    List.mem_append_right _ (List.mem_cons_self _ _)
  have hwfd := hwf d hmemd
  have hpos0len : pos0 ≤ f.length := (parseHeader_ok_elim hdr).2.1
  -- the chain position of the matched directory
  obtain ⟨posd, hchd0⟩ := chain_suffix pre hch
  have hipd := (chain_in_ptr hchd0).1
  have hchd : Chain big le f d.in_pointer_offset (d :: post) := by
    rw [hipd]; exact hchd0
  have hpost : Chain big le f d.out_pointer_offset post := by
    cases hchd with
    | cons _ _ _ _ _ _ _ h => exact h
  -- the value stored at the matched directory's out slot
  obtain ⟨vout, hvf, hcase⟩ :
      ∃ v, readUInt le f d.out_pointer_offset (szZ big) = .ok v ∧
        ((post = [] ∧ v = 0) ∨ ∃ e t, post = e :: t ∧ v = e.off ∧ e.off ≠ 0 ∧
          parseDir big le f e.off d.out_pointer_offset = .ok e ∧
          Chain big le f e.out_pointer_offset t) := by
    cases hpost with
    | nil _ hr0 => exact ⟨0, hr0, Or.inl ⟨rfl, rfl⟩⟩
    | cons _ doff2 e t hr2 hne2 hd2 ht2 =>
      have he := (parseDir_off_le hd2).1
      refine ⟨doff2, hr2, Or.inr ⟨e, t, rfl, he.symm, ?_, ?_, ht2⟩⟩
      · rw [he]; exact hne2
      · rw [he]; exact hd2
  have hvbound : vout < 256 ^ szZ big := readUInt_lt hbytes hvf
  -- frame through the wipe
  have hA1 : ∀ p, (∃ iv ∈ structIvals big pos0 (pre ++ d :: post), ival iv p) →
      (wipeStrips f 0 (os.zip ls)).1[p]? = f[p]? := by
    intro p hiv
    have hlt := structIvals_lt hch hpos0len hiv
    apply wipeStrips_getElem?_frame _ _ _ hlt
    intro ol hol
    obtain ⟨iv, hivm, hivp⟩ := hiv
    exact ivDisj_not (hstr ol hol iv hivm) hivp
  -- the out-slot read after the wipe sees the original value
  have hv1 : readUInt le (wipeStrips f 0 (os.zip ls)).1 d.out_pointer_offset (szZ big) =
      readUInt le f d.out_pointer_offset (szZ big) := by
    refine readUInt_congr fun p h1 h2 => hA1 p
      ⟨(d.off, d.out_pointer_offset + szZ big - d.off), ?_, ?_⟩
    · simp only [structIvals, List.mem_cons, List.mem_map]
      exact Or.inr (Or.inr ⟨d, hmemd, rfl⟩)
    · dsimp only [ival]
      omega
  have hopw : readUInt le (wipeStrips f 0 (os.zip ls)).1 d.out_pointer_offset (szZ big) =
      .ok vout := by rw [hv1]; exact hvf
  -- reduce the full pipeline
  have hopen : openTiff fuel f = .ok ⟨le, big, pre ++ d :: post⟩ := openTiff_ok hdr hwalk
  have hstep := redactStep_eq true heo hvo hel hvl hopw
  simp only [if_true] at hstep
  have hdel : delete_aperio_label fuel f true =
      (writeBytes (wipeStrips f 0 (os.zip ls)).1 d.in_pointer_offset
        (encodeNum le (szZ big) vout), .ok (wipeStrips f 0 (os.zip ls)).2) := by
    simp only [delete_aperio_label, hopen]
    rw [aux_skip pre (d :: post) hpre]
    simp only [delete_aperio_labelAux, hmatch]
    exact hstep
  -- frame through wipe plus splice
  have hA2 : ∀ p, (∃ iv ∈ structIvals big pos0 (pre ++ d :: post), ival iv p) →
      (∃ iv2 ∈ survIvals big pos0 pre post, ival iv2 p) →
      (writeBytes (wipeStrips f 0 (os.zip ls)).1 d.in_pointer_offset
        (encodeNum le (szZ big) vout))[p]? = f[p]? := by
    intro p h1 h2
    obtain ⟨iv2, hm2, hp2⟩ := h2
    have hnospl := ivDisj_not (hspl iv2 hm2) hp2
    have hlt := structIvals_lt hch hpos0len h1
    rw [writeBytes_getElem?_frame (wipeStrips_length _ _ _ hlt) ?_, hA1 p h1]
    rw [encodeNum_length]
    intro hcon
    exact hnospl (by dsimp only [ival]; omega)
  -- part (a): the slot value written
  have hconcA : readUInt le (writeBytes (wipeStrips f 0 (os.zip ls)).1 d.in_pointer_offset
      (encodeNum le (szZ big) vout)) d.in_pointer_offset (szZ big) =
      readUInt le f d.out_pointer_offset (szZ big) := by
    rw [hvf]
    have hrb : readBytes (writeBytes (wipeStrips f 0 (os.zip ls)).1 d.in_pointer_offset
        (encodeNum le (szZ big) vout)) d.in_pointer_offset (szZ big) =
        encodeNum le (szZ big) vout := by
      have h0 := writeBytes_readBack (wipeStrips f 0 (os.zip ls)).1 d.in_pointer_offset
        (encodeNum le (szZ big) vout)
      rwa [encodeNum_length] at h0
    unfold readUInt
    rw [hrb, encodeNum_length, if_pos rfl, decodeNum_encodeNum le _ _ hvbound]
  -- the new tail chain from the splice slot
  have htail : Chain big le
      (writeBytes (wipeStrips f 0 (os.zip ls)).1 d.in_pointer_offset
        (encodeNum le (szZ big) vout))
      d.in_pointer_offset (spliceTail d post) := by
    rcases hcase with ⟨hpnil, hv0⟩ | ⟨e, t, hpeq, hve, hnee, hde, hte⟩
    · subst hpnil
      subst hv0
      exact Chain.nil _ (by rw [hconcA]; exact hvf)
    · subst hpeq
      subst hve
      have hmeme : e ∈ pre ++ d :: e :: t :=
        List.mem_append_right _ (List.mem_cons_of_mem _ (List.mem_cons_self _ _))
      have hwfe := hwf e hmeme
      have hsurvE : (e.off, e.out_pointer_offset + szZ big - e.off) ∈
          survIvals big pos0 pre (e :: t) :=
        List.mem_cons_of_mem _ (List.mem_append_right _
          (List.mem_map_of_mem _ (List.mem_cons_self _ _)))
      have hstructE : (e.off, e.out_pointer_offset + szZ big - e.off) ∈
          structIvals big pos0 (pre ++ d :: e :: t) :=
        List.mem_cons_of_mem _ (List.mem_cons_of_mem _ (List.mem_map_of_mem _ hmeme))
      refine Chain.cons d.in_pointer_offset e.off
        { e with in_pointer_offset := d.in_pointer_offset } t ?_ hnee ?_ ?_
      · rw [hconcA]; exact hvf
      · have h1 := @parseDir_inPtr big le f e.off d.out_pointer_offset
          d.in_pointer_offset e hde
        refine parseDir_congr h1 fun p hp1 hp2 => ?_
        have hp2' : p < e.out_pointer_offset := hp2
        refine hA2 p ⟨(e.off, e.out_pointer_offset + szZ big - e.off), hstructE, ?_⟩
          ⟨(e.off, e.out_pointer_offset + szZ big - e.off), hsurvE, ?_⟩ <;>
          (dsimp only [ival]; omega)
      · refine chain_congr hte fun p hp => ?_
        rcases hp with ⟨h1, h2⟩ | ⟨x, hx, h1, h2⟩
        · have h1' : e.out_pointer_offset ≤ p := h1
          have h2' : p < e.out_pointer_offset + szZ big := h2
          refine hA2 p ⟨_, hstructE, ?_⟩ ⟨_, hsurvE, ?_⟩ <;> (dsimp only [ival]; omega)
        · have hmemx : x ∈ pre ++ d :: e :: t :=
            List.mem_append_right _
              (List.mem_cons_of_mem _ (List.mem_cons_of_mem _ hx))
          have hwfx := hwf x hmemx
          refine hA2 p ⟨(x.off, x.out_pointer_offset + szZ big - x.off), ?_, ?_⟩
            ⟨(x.off, x.out_pointer_offset + szZ big - x.off), ?_, ?_⟩
          · exact List.mem_cons_of_mem _ (List.mem_cons_of_mem _
              (List.mem_map_of_mem _ hmemx))
          · dsimp only [ival]; omega
          · exact List.mem_cons_of_mem _ (List.mem_append_right _
              (List.mem_map_of_mem _ (List.mem_cons_of_mem _ hx)))
          · dsimp only [ival]; omega
  -- splice the prefix back on
  have hnew : Chain big le
      (writeBytes (wipeStrips f 0 (os.zip ls)).1 d.in_pointer_offset
        (encodeNum le (szZ big) vout))
      pos0 (pre ++ spliceTail d post) := by
    refine chain_splice pre pos0 hch (fun iv hiv p hp => ?_) htail
    have hcr := preIvals_sub pre hch iv hiv p hp
    exact hA2 p (chainReads_struct hwf hcr)
      ⟨iv, List.mem_cons_of_mem _ (List.mem_append_left _ hiv), hp⟩
  -- header is untouched
  have hhd2 : parseHeader (writeBytes (wipeStrips f 0 (os.zip ls)).1 d.in_pointer_offset
      (encodeNum le (szZ big) vout)) = .ok (le, big, pos0) := by
    refine parseHeader_congr hdr fun p hp => ?_
    have hp' : p < pos0 := hp
    refine hA2 p ⟨(0, pos0), List.mem_cons_self _ _, ?_⟩
      ⟨(0, pos0), List.mem_cons_self _ _, ?_⟩ <;> (dsimp only [ival]; omega)
  -- fuel suffices for the shorter chain
  have hfc := walkDirs_fuel hwalk
  have hsplen : (spliceTail d post).length ≤ post.length := by
    cases post <;> simp [spliceTail]
  have hlen2 : (pre ++ spliceTail d post).length < fuel := by
    simp only [List.length_append, List.length_cons] at hfc ⊢
    omega
  have hwalk2 := chain_walkDirs hnew fuel hlen2
  have hopen2 := openTiff_ok hhd2 hwalk2
  -- assemble
  refine ⟨?_, ?_, ?_⟩
  · rw [hdel]
    exact hconcA
  · rw [hdel]
    exact hopen2
  · intro x hx
    rcases List.mem_append.1 hx with hx | hx
    · intro hxd
      exact hoffs x (List.mem_append_left _ hx) (by rw [hxd])
    · cases hp2 : post with
      | nil => rw [hp2] at hx; exact absurd hx (List.not_mem_nil x)
      | cons e t =>
        rw [hp2] at hx
        rcases List.mem_cons.1 hx with rfl | hx
        · intro hxd
          have : e.off ≠ d.off :=
            hoffs e (List.mem_append_right _ (by rw [hp2]; exact List.mem_cons_self _ _))
          exact this (by rw [← hxd])
        · intro hxd
          have : x.off ≠ d.off :=
            hoffs x (List.mem_append_right _ (by rw [hp2]; exact List.mem_cons_of_mem _ hx))
          exact this (by rw [hxd])

/-! ### Claim theorems -/

/-- C1: on the spec's synthetic little-endian classic file
(`StripOffsets = [100]`, `StripByteCounts = [20]`), redaction zeroes
exactly bytes 100..119 — the file becomes its first 100 bytes followed by
20 zero bytes — but the reported wiped-byte total is 57, not the claimed
20: line 177 accumulates `sys.getsizeof('\0' * 20)` (20 payload bytes
plus the 37-byte CPython `str` overhead) instead of the length. -/
theorem claim_C1_synthetic_wipe_report :
    delete_aperio_label 8 synthFile false =
      (synthFile.take 100 ++ List.replicate 20 0, .ok 57) ∧ (57 : Nat) ≠ 20 :=
  ⟨by set_option maxRecDepth 8000 in decide, by decide⟩

/-- C6: when `TiffFile.__init__` succeeds and no directory in the chain
matches the label heuristic, `delete_aperio_label` fails with
`labelNotFound` (the spec's LabelNotFound) and the file bytes are
returned unchanged. -/
theorem claim_C6_label_not_found {fuel : Nat} {f : List Nat} {t : TiffFile} (de : Bool)
    (hopen : openTiff fuel f = .ok t)
    (hall : ∀ x ∈ t.directories, checkMatch t.bigtiff t.le f x = .ok false) :
    delete_aperio_label fuel f de = (f, .error .labelNotFound) := by
  simp only [delete_aperio_label, hopen]
  have h := @aux_skip t.bigtiff t.le de f t.directories [] hall
  rw [List.append_nil] at h
  rw [h]
  rfl

theorem claim_C6_label_not_found_witness :
    delete_aperio_label 8 noMatchFile true = (noMatchFile, .error .labelNotFound) :=
  @claim_C6_label_not_found 8 noMatchFile ⟨true, false, [noMatchDir]⟩ true
    (by decide) (by decide)

/-- C10: the directory traversal of `TiffFile.__init__` (modelled with
fuel, since the source loop is unbounded) succeeds exactly on the files
whose link chain reaches a 0 link after finitely many steps — the
`Chain` predicate — and then yields exactly the chain's directories in
link order; on a file with no finite chain no amount of fuel makes the
walk return a directory list. -/
theorem claim_C10_walk_termination (big le : Bool) (f : List Nat) (pos : Nat) :
    (∀ ds fuel, Chain big le f pos ds → ds.length < fuel →
      walkDirs big le f fuel pos = .ok ds) ∧
    (∀ fuel ds, walkDirs big le f fuel pos = .ok ds → Chain big le f pos ds) ∧
    (∀ fuel ds, (∀ ds2, ¬ Chain big le f pos ds2) → walkDirs big le f fuel pos ≠ .ok ds) :=
  ⟨fun _ fuel h hf => chain_walkDirs h fuel hf,
   fun fuel _ h => walkDirs_chain fuel h,
   fun fuel ds hno h => hno ds (walkDirs_chain fuel h)⟩

theorem claim_C10_walk_termination_witness :
    Chain false true synthFile 4 [synthDir] :=
  (claim_C10_walk_termination false true synthFile 4).2.1 8 [synthDir] (by decide)

theorem parseVersion_ok42 {le : Bool} {f : List Nat}
    (h1 : readUInt le f 2 2 = .ok 42) : parseVersion le f = .ok (le, false, 4) := by
  unfold parseVersion
  rw [h1, except_bind_ok, if_pos rfl]
  rfl

theorem parseVersion_ok43 {le : Bool} {f : List Nat}
    (h1 : readUInt le f 2 2 = .ok 43) (h2 : readUInt le f 4 2 = .ok 8)
    (h3 : readUInt le f 6 2 = .ok 0) : parseVersion le f = .ok (le, true, 8) := by
  unfold parseVersion
  rw [h1, except_bind_ok, if_neg (by omega), if_pos rfl, h2, except_bind_ok, h3,
    except_bind_ok, if_neg (by simp)]
  rfl

theorem parseVersion_notTiff {le : Bool} {f : List Nat} {v : Nat}
    (h1 : readUInt le f 2 2 = .ok v) (h42 : v ≠ 42) (h43 : v ≠ 43) :
    parseVersion le f = .error .notTiff := by
  unfold parseVersion
  rw [h1, except_bind_ok, if_neg h42, if_neg h43]

theorem parseVersion_badBig {le : Bool} {f : List Nat} {a b : Nat}
    (h1 : readUInt le f 2 2 = .ok 43) (h2 : readUInt le f 4 2 = .ok a)
    (h3 : readUInt le f 6 2 = .ok b) (hab : ¬ (a = 8 ∧ b = 0)) :
    parseVersion le f = .error .badBigHeader := by
  unfold parseVersion
  rw [h1, except_bind_ok, if_neg (by omega), if_pos rfl, h2, except_bind_ok, h3,
    except_bind_ok, if_pos (by omega)]

theorem parseHeader_split {f : List Nat} {r : Bool × Bool × Nat}
    (h : parseHeader f = .ok r) :
    (readBytes f 0 2 = [73, 73] ∧ parseVersion true f = .ok r) ∨
    (readBytes f 0 2 ≠ [73, 73] ∧ readBytes f 0 2 = [77, 77] ∧
      parseVersion false f = .ok r) := by
  unfold parseHeader at h
  by_cases hm : readBytes f 0 2 = [73, 73]
  · rw [if_pos hm] at h
    exact Or.inl ⟨hm, h⟩
  · rw [if_neg hm] at h
    by_cases hm2 : readBytes f 0 2 = [77, 77]
    · rw [if_pos hm2] at h
      exact Or.inr ⟨hm, hm2, h⟩
    · rw [if_neg hm2] at h
      exact absurd h (by simp)

/-- C3: opening a file resolves the header successfully exactly when the
first two bytes are `II` or `MM` and the version field (read in the
corresponding endianness) is 42, or is 43 followed by the 16-bit pair
`(8, 0)`; the resolved mode matches the marker and version (classic
exactly for version 42, with the post-header position 4 or 8); any other
marker or version value fails with `Not a TIFF file` and any other Big
pair with `Bad BigTIFF header` (the spec's FormatError). -/
theorem claim_C3_header_resolution (f : List Nat) :
    ((∃ r, parseHeader f = .ok r) ↔
      ((readBytes f 0 2 = [73, 73] ∧
         (readUInt true f 2 2 = .ok 42 ∨
           (readUInt true f 2 2 = .ok 43 ∧ readUInt true f 4 2 = .ok 8 ∧
             readUInt true f 6 2 = .ok 0))) ∨
       (readBytes f 0 2 = [77, 77] ∧
         (readUInt false f 2 2 = .ok 42 ∨
           (readUInt false f 2 2 = .ok 43 ∧ readUInt false f 4 2 = .ok 8 ∧
             readUInt false f 6 2 = .ok 0))))) ∧
    (∀ le big pos0, parseHeader f = .ok (le, big, pos0) →
      (le = true ↔ readBytes f 0 2 = [73, 73]) ∧
      (big = false ↔ readUInt le f 2 2 = .ok 42) ∧
      pos0 = (if big then 8 else 4)) ∧
    (readBytes f 0 2 ≠ [73, 73] → readBytes f 0 2 ≠ [77, 77] →
      parseHeader f = .error .notTiff) ∧
    (∀ le : Bool, ((le = true ∧ readBytes f 0 2 = [73, 73]) ∨
        (le = false ∧ readBytes f 0 2 = [77, 77])) →
      (∀ v, readUInt le f 2 2 = .ok v → v ≠ 42 → v ≠ 43 →
        parseHeader f = .error .notTiff) ∧
      (∀ a b, readUInt le f 2 2 = .ok 43 → readUInt le f 4 2 = .ok a →
        readUInt le f 6 2 = .ok b → ¬ (a = 8 ∧ b = 0) →
        parseHeader f = .error .badBigHeader)) := by
  have hMMneII : ([77, 77] : List Nat) ≠ [73, 73] := by decide
  refine ⟨⟨?_, ?_⟩, ?_, ?_, ?_⟩
  · -- success implies the header conditions
    rintro ⟨r, hr⟩
    rcases parseHeader_split hr with ⟨hm, hv⟩ | ⟨_, hm, hv⟩
    · obtain ⟨hle, hpos, hlen, hclassic, hbig⟩ := parseVersion_ok_elim hv
      refine Or.inl ⟨hm, ?_⟩
      cases hb : r.2.1 with
      | false => exact Or.inl (hclassic hb)
      | true => exact Or.inr (hbig hb)
    · obtain ⟨hle, hpos, hlen, hclassic, hbig⟩ := parseVersion_ok_elim hv
      refine Or.inr ⟨hm, ?_⟩
      cases hb : r.2.1 with
      | false => exact Or.inl (hclassic hb)
      | true => exact Or.inr (hbig hb)
  · -- the header conditions imply success
    rintro (⟨hm, hver⟩ | ⟨hm, hver⟩)
    · rcases hver with h1 | ⟨h1, h2, h3⟩
      · exact ⟨(true, false, 4), by unfold parseHeader; rw [if_pos hm, parseVersion_ok42 h1]⟩
      · exact ⟨(true, true, 8), by
          unfold parseHeader; rw [if_pos hm, parseVersion_ok43 h1 h2 h3]⟩
    · have hne : readBytes f 0 2 ≠ [73, 73] := by rw [hm]; exact hMMneII
      rcases hver with h1 | ⟨h1, h2, h3⟩
      · exact ⟨(false, false, 4), by
          unfold parseHeader; rw [if_neg hne, if_pos hm, parseVersion_ok42 h1]⟩
      · exact ⟨(false, true, 8), by
          unfold parseHeader; rw [if_neg hne, if_pos hm, parseVersion_ok43 h1 h2 h3]⟩
  · -- mode selection
    intro le big pos0 h
    rcases parseHeader_split h with ⟨hm, hv⟩ | ⟨hmne, hm, hv⟩ <;>
      obtain ⟨hle, hpos, hlen, hclassic, hbig⟩ := parseVersion_ok_elim hv
    · have hle' : le = true := hle
      subst hle'
      have hposif : pos0 = if big then 8 else 4 := hpos
      refine ⟨⟨fun _ => hm, fun _ => rfl⟩, ⟨fun hb => hclassic hb, ?_⟩, hposif⟩
      intro h42
      cases hb : big with
      | false => rfl
      | true =>
        have h43 : readUInt true f 2 2 = .ok 43 := (hbig hb).1
        rw [h42] at h43
        exact absurd (Except.ok.inj h43) (by omega)
    · have hle' : le = false := hle
      subst hle'
      have hposif : pos0 = if big then 8 else 4 := hpos
      refine ⟨⟨fun hq => absurd hq (by simp), fun hq => absurd hq hmne⟩,
        ⟨fun hb => hclassic hb, ?_⟩, hposif⟩
      intro h42
      cases hb : big with
      | false => rfl
      | true =>
        have h43 : readUInt false f 2 2 = .ok 43 := (hbig hb).1
        rw [h42] at h43
        exact absurd (Except.ok.inj h43) (by omega)
  · -- neither marker
    intro h1 h2
    unfold parseHeader
    rw [if_neg h1, if_neg h2]
  · -- wrong version / wrong Big pair
    rintro le (⟨hle, hm⟩ | ⟨hle, hm⟩)
    · subst hle
      constructor
      · intro v h1 h42 h43
        unfold parseHeader
        rw [if_pos hm, parseVersion_notTiff h1 h42 h43]
      · intro a b h1 h2 h3 hab
        unfold parseHeader
        rw [if_pos hm, parseVersion_badBig h1 h2 h3 hab]
    · subst hle
      have hne : readBytes f 0 2 ≠ [73, 73] := by rw [hm]; exact hMMneII
      constructor
      · intro v h1 h42 h43
        unfold parseHeader
        rw [if_neg hne, if_pos hm, parseVersion_notTiff h1 h42 h43]
      · intro a b h1 h2 h3 hab
        unfold parseHeader
        rw [if_neg hne, if_pos hm, parseVersion_badBig h1 h2 h3 hab]

/-- C4: for every entry with a supported type code, the value is decoded
inline — from the entry's start plus the tag/type/count widths — exactly
when `count * item_size` is at most the active mode's slot width (4
classic, 8 Big), the boundary `count * item_size = slot width` included;
strictly above the slot width, the slot is treated as an absolute offset
and the value is decoded out-of-line from there. -/
theorem claim_C4_inline_threshold {big le : Bool} {f : List Nat} {e : TiffEntry} {isz : Nat}
    (hisz : itemSize e.type = .ok isz) :
    (e.count * isz ≤ szZ big →
      entryValue big le f e = decodeValueAt le f e isz (e.start + (2 + 2 + szZ big))) ∧
    (szZ big < e.count * isz →
      entryValue big le f e = decodeValueAt le f e isz e.value_offset) := by
  constructor
  · intro h
    simp only [entryValue, hisz]
    rw [if_pos h]
  · intro h
    simp only [entryValue, hisz]
    rw [if_neg (by omega)]

theorem claim_C4_inline_threshold_witness :
    (entryValue false true wC4File wC4EntryIn =
      decodeValueAt true wC4File wC4EntryIn 4 (wC4EntryIn.start + (2 + 2 + szZ false))) ∧
    (entryValue false true wC4File wC4EntryOut =
      decodeValueAt true wC4File wC4EntryOut 4 wC4EntryOut.value_offset) ∧
    (entryValue true true wC4File8 wC4EntryIn8 =
      decodeValueAt true wC4File8 wC4EntryIn8 8 (wC4EntryIn8.start + (2 + 2 + szZ true))) ∧
    (entryValue true true wC4File8 wC4EntryOut8 =
      decodeValueAt true wC4File8 wC4EntryOut8 8 wC4EntryOut8.value_offset) :=
  ⟨(claim_C4_inline_threshold (by decide)).1 (by decide),
   (claim_C4_inline_threshold (by decide)).2 (by decide),
   (claim_C4_inline_threshold (by decide)).1 (by decide),
   (claim_C4_inline_threshold (by decide)).2 (by decide)⟩

theorem decodeSeq_one (le : Bool) : ∀ (n : Nat) (bs : List Nat), bs.length = n →
    decodeSeq le 1 n bs = bs := by
  intro n
  induction n with
  | zero =>
    intro bs h
    cases bs with
    | nil => rfl
    | cons b t => simp at h
  | succ n ih =>
    intro bs h
    cases bs with
    | nil => simp at h
    | cons b t =>
      have hb : decodeNum le [b] = b := by
        cases le <;> simp [decodeNum, leVal]
      have h1 : List.take 1 (b :: t) = [b] := rfl
      have h2 : List.drop 1 (b :: t) = t := rfl
      show decodeNum le (List.take 1 (b :: t)) :: decodeSeq le 1 n (List.drop 1 (b :: t)) =
        b :: t
      rw [h1, h2, ih t (by simpa using h), hb]

/-- C7: decoding an ASCII entry whose stored bytes are a text `T`
followed by a single null byte returns exactly `T` with the terminator
discarded; if the stored byte sequence's last byte is not null, decoding
fails with `String not null-terminated` (the spec's MalformedString). -/
theorem claim_C7_ascii_roundtrip {big le : Bool} {f : List Nat} {e : TiffEntry}
    (hty : e.type = ASCII) :
    (∀ T : List Nat, e.count = T.length + 1 →
      readBytes f (asciiSrc big e) e.count = T ++ [0] →
      entryValue big le f e = .ok (.str T)) ∧
    (∀ U : List Nat, readBytes f (asciiSrc big e) e.count = U → U.length = e.count →
      ∀ b, U.getLast? = some b → b ≠ 0 →
      entryValue big le f e = .error .notNullTerminated) := by
  have hisz : itemSize e.type = .ok 1 := by rw [hty]; rfl
  have hsrc : (if e.count * 1 ≤ szZ big then e.start + (2 + 2 + szZ big)
      else e.value_offset) = asciiSrc big e := by
    rw [Nat.mul_one]
    rfl
  constructor
  · intro T hc hread
    simp only [entryValue, hisz, hsrc]
    simp only [decodeValueAt, Nat.mul_one, hread]
    rw [if_pos (by simp [hc]), decodeSeq_one le e.count (T ++ [0]) (by simp [hc]),
      if_pos hty]
    simp [List.getLast?_concat, List.dropLast_concat]
  · intro U hread hlen b hlast hb
    simp only [entryValue, hisz, hsrc]
    simp only [decodeValueAt, Nat.mul_one, hread]
    rw [if_pos hlen, decodeSeq_one le e.count U hlen, if_pos hty, hlast]
    simp [hb]

theorem claim_C7_ascii_roundtrip_witness :
    entryValue false true wC7File wC7Entry = .ok (.str [97, 98]) ∧
    entryValue false true wC7BadFile wC7Entry = .error .notNullTerminated :=
  ⟨(claim_C7_ascii_roundtrip (by decide)).1 [97, 98] (by decide) (by decide),
   (claim_C7_ascii_roundtrip (by decide)).2 [97, 98, 5] (by decide) (by decide)
     5 (by decide) (by decide)⟩

theorem getLast?_cons_eq {α : Type} (a : α) (l : List α) :
    (a :: l).getLast? = match l.getLast? with | some x => some x | none => some a := by
  cases l with
  | nil => rfl
  | cons b t =>
    rw [List.getLast?_cons_cons]
    cases h : (b :: t).getLast? with
    | none => simp at h
    | some x => rfl

theorem entLookup_cons (a : Nat × TiffEntry) (l : List (Nat × TiffEntry)) (t : Nat) :
    entLookup (a :: l) t = if a.1 = t then some a.2 else entLookup l t := by
  by_cases h : a.1 = t
  · simp [entLookup, List.find?_cons, h]
  · simp [entLookup, List.find?_cons, h]

theorem entLookup_dictInsert (m : List (Nat × TiffEntry)) (e : TiffEntry) (t : Nat) :
    entLookup (dictInsert m e) t = if t = e.tag then some e else entLookup m t := by
  induction m with
  | nil =>
    by_cases h : t = e.tag
    · simp [dictInsert, entLookup_cons, h, entLookup]
    · simp only [dictInsert, List.filter_nil, List.nil_append, entLookup_cons]
      rw [if_neg (fun hq => h hq.symm), if_neg h]
  | cons kv m ih =>
    by_cases hkv : kv.1 = e.tag
    · have hstep : dictInsert (kv :: m) e = dictInsert m e := by
        simp [dictInsert, List.filter_cons, hkv]
      rw [hstep, ih, entLookup_cons]
      by_cases ht : t = e.tag
      · rw [if_pos ht, if_pos ht]
      · rw [if_neg ht, if_neg ht, if_neg (by omega)]
    · have hstep : dictInsert (kv :: m) e = kv :: dictInsert m e := by
        simp [dictInsert, List.filter_cons, hkv]
      rw [hstep, entLookup_cons, entLookup_cons, ih]
      by_cases hkvt : kv.1 = t
      · rw [if_pos hkvt, if_pos hkvt, if_neg (by omega)]
      · rw [if_neg hkvt, if_neg hkvt]

theorem buildDict_lookup_aux : ∀ (es : List TiffEntry) (m : List (Nat × TiffEntry)) (t : Nat),
    entLookup (es.foldl dictInsert m) t =
      match (es.filter fun e => e.tag == t).getLast? with
      | some e => some e
      | none => entLookup m t := by
  intro es
  induction es with
  | nil =>
    intro m t
    rfl
  | cons e es ih =>
    intro m t
    show entLookup (es.foldl dictInsert (dictInsert m e)) t = _
    rw [ih (dictInsert m e) t, entLookup_dictInsert]
    by_cases h : e.tag = t
    · rw [List.filter_cons_of_pos (by simp [h]), getLast?_cons_eq]
      cases hl : (es.filter fun x => x.tag == t).getLast? with
      | some x => rfl
      | none => rw [if_pos h.symm]
    · rw [List.filter_cons_of_neg (by simp [h])]
      cases hl : (es.filter fun x => x.tag == t).getLast? with
      | some x => rfl
      | none => rw [if_neg (fun hq => h hq.symm)]

theorem dictInsert_keys_nodup (m : List (Nat × TiffEntry)) (e : TiffEntry)
    (h : (m.map Prod.fst).Nodup) : ((dictInsert m e).map Prod.fst).Nodup := by
  unfold dictInsert
  rw [List.map_append, List.nodup_append]
  refine ⟨List.Nodup.sublist (List.Sublist.map _ (List.filter_sublist m)) h, by simp, ?_⟩
  intro a ha hb
  simp only [List.map_cons, List.map_nil, List.mem_cons, List.not_mem_nil, or_false] at hb
  obtain ⟨kv, hkv, rfl⟩ := List.mem_map.1 ha
  have := (List.mem_filter.1 hkv).2
  simp at this
  exact this (by rw [hb])

theorem buildDict_keys_nodup_aux : ∀ (es : List TiffEntry) (m : List (Nat × TiffEntry)),
    (m.map Prod.fst).Nodup → ((es.foldl dictInsert m).map Prod.fst).Nodup := by
  intro es
  induction es with
  | nil => intro m h; exact h
  | cons e es ih => intro m h; exact ih (dictInsert m e) (dictInsert_keys_nodup m e h)

theorem dictInsert_mem {m : List (Nat × TiffEntry)} {e : TiffEntry}
    {kv : Nat × TiffEntry} (h : kv ∈ dictInsert m e) : kv ∈ m ∨ kv = (e.tag, e) := by
  unfold dictInsert at h
  rcases List.mem_append.1 h with h | h
  · exact Or.inl (List.mem_of_mem_filter h)
  · simp only [List.mem_cons, List.not_mem_nil, or_false] at h
    exact Or.inr h

theorem buildDict_tags_aux : ∀ (es : List TiffEntry) (m : List (Nat × TiffEntry)),
    (∀ kv ∈ m, (kv : Nat × TiffEntry).2.tag = kv.1) →
    ∀ kv ∈ es.foldl dictInsert m, (kv : Nat × TiffEntry).2.tag = kv.1 := by
  intro es
  induction es with
  | nil => intro m h; exact h
  | cons e es ih =>
    intro m h
    refine ih (dictInsert m e) ?_
    intro kv hkv
    rcases dictInsert_mem hkv with hkv | rfl
    · exact h kv hkv
    · rfl

/-- C9: the in-memory `entries` dict built while decoding a directory
keeps, for each tag, exactly the last entry read with that tag
(`self.entries[entry.tag] = entry` overwrites), its keys are unique after
construction, and every binding maps a tag to an entry carrying that
tag. -/
theorem claim_C9_last_wins (es : List TiffEntry) :
    (∀ t, entLookup (buildDict es) t = (es.filter fun e => e.tag == t).getLast?) ∧
    ((buildDict es).map Prod.fst).Nodup ∧
    (∀ kv ∈ buildDict es, (kv : Nat × TiffEntry).2.tag = kv.1) := by
  refine ⟨?_, buildDict_keys_nodup_aux es [] (by simp),
    buildDict_tags_aux es [] (by simp)⟩
  intro t
  rw [show buildDict es = es.foldl dictInsert [] from rfl, buildDict_lookup_aux]
  cases hl : (es.filter fun e => e.tag == t).getLast? with
  | some x => rfl
  | none => rfl

/-- C5 (counterexample to the claim as stated): on `cx5File` the single
directory matches the heuristic and has no StripByteCounts entry, yet
redaction fails with `unsupportedType`, not `labelNotStripped`: the
StripOffsets value is fetched first (line 167) and its unsupported type
code raises before the StripByteCounts `KeyError` can be reached.  The
file is still returned unchanged. -/
theorem claim_C5_missing_strip_counterexample :
    openTiff 8 cx5File = .ok ⟨true, false, [cxDir]⟩ ∧
    checkMatch false true cx5File cxDir = .ok true ∧
    entLookup cxDir.entries STRIP_BYTE_COUNTS = none ∧
    delete_aperio_label 8 cx5File true = (cx5File, .error .unsupportedType) ∧
    delete_aperio_label 8 cx5File true ≠ (cx5File, .error .labelNotStripped) := by
  refine ⟨by decide, by decide, by decide, by decide, by decide⟩

/-- C5 (amended): for the first matching directory, if StripOffsets is
absent, or StripOffsets is present with a successfully decoding value and
StripByteCounts is absent, redaction fails with `Label is not stripped`
(the spec's MissingStripInfo) and the file is byte-for-byte unchanged;
when a present StripOffsets value fails to decode, that decoding error is
reported instead (still with no bytes written). -/
theorem claim_C5_missing_strip_amended
    {fuel : Nat} {f : List Nat} {le big : Bool} {pos0 : Nat}
    {pre post : List TiffDirectory} {d : TiffDirectory} (de : Bool)
    (hdr : parseHeader f = .ok (le, big, pos0))
    (hwalk : walkDirs big le f fuel pos0 = .ok (pre ++ d :: post))
    (hpre : ∀ x ∈ pre, checkMatch big le f x = .ok false)
    (hmatch : checkMatch big le f d = .ok true)
    (hmiss : entLookup d.entries STRIP_OFFSETS = none ∨
      (∃ eo vo, entLookup d.entries STRIP_OFFSETS = some eo ∧
        entryValue big le f eo = .ok vo ∧
        entLookup d.entries STRIP_BYTE_COUNTS = none)) :
    delete_aperio_label fuel f de = (f, .error .labelNotStripped) := by
  have hopen : openTiff fuel f = .ok ⟨le, big, pre ++ d :: post⟩ := openTiff_ok hdr hwalk
  simp only [delete_aperio_label, hopen]
  rw [aux_skip pre (d :: post) hpre]
  simp only [delete_aperio_labelAux, hmatch]
  exact redactStep_missing hmiss

theorem claim_C5_missing_strip_amended_witness :
    delete_aperio_label 8 w5File true = (w5File, .error .labelNotStripped) :=
  @claim_C5_missing_strip_amended 8 w5File true false 4 [] [] w5Dir true
    (by decide) (by decide) (by decide) (by decide) (Or.inl (by decide))

/-- C8: redaction writes only inside the matched directory's declared
strip ranges and (at most) the `szZ`-wide slot at its
`in_pointer_offset`: every byte position outside those ranges is
unchanged by `delete_aperio_label`; in particular the skipped
(non-matching) directories and any data disjoint from the written ranges
are left completely unmodified, scanning being read-only. -/
theorem claim_C8_frame
    {fuel : Nat} {f : List Nat} {le big : Bool} {pos0 : Nat}
    {pre post : List TiffDirectory} {d : TiffDirectory}
    {eo el : TiffEntry} {os ls : List Nat} (de : Bool)
    (hdr : parseHeader f = .ok (le, big, pos0))
    (hwalk : walkDirs big le f fuel pos0 = .ok (pre ++ d :: post))
    (hpre : ∀ x ∈ pre, checkMatch big le f x = .ok false)
    (hmatch : checkMatch big le f d = .ok true)
    (heo : entLookup d.entries STRIP_OFFSETS = some eo)
    (hvo : entryValue big le f eo = .ok (.nums os))
    (hel : entLookup d.entries STRIP_BYTE_COUNTS = some el)
    (hvl : entryValue big le f el = .ok (.nums ls)) :
    ∀ p, p < f.length →
      (∀ ol ∈ os.zip ls, ¬ (ol.1 ≤ p ∧ p < ol.1 + ol.2)) →
      ¬ (d.in_pointer_offset ≤ p ∧ p < d.in_pointer_offset + szZ big) →
      (delete_aperio_label fuel f de).1[p]? = f[p]? := by
  intro p hp hstrips hsplice
  have hopen : openTiff fuel f = .ok ⟨le, big, pre ++ d :: post⟩ := openTiff_ok hdr hwalk
  have hdel1 : delete_aperio_label fuel f de = redactStep big le de f d := by
    simp only [delete_aperio_label, hopen]
    rw [aux_skip pre (d :: post) hpre]
    simp only [delete_aperio_labelAux, hmatch]
  rw [hdel1]
  have hwipe := wipeStrips_getElem?_frame (os.zip ls) f 0 hp hstrips
  simp only [redactStep, heo, hvo, hel, hvl]
  cases hro : readUInt le (wipeStrips f 0 (os.zip ls)).1 d.out_pointer_offset (szZ big) with
  | error er =>
    show (wipeStrips f 0 (os.zip ls)).1[p]? = f[p]?
    exact hwipe
  | ok v =>
    cases de with
    | false =>
      show (wipeStrips f 0 (os.zip ls)).1[p]? = f[p]?
      exact hwipe
    | true =>
      show (writeBytes (wipeStrips f 0 (os.zip ls)).1 d.in_pointer_offset
        (encodeNum le (szZ big) v))[p]? = f[p]?
      rw [writeBytes_getElem?_frame (wipeStrips_length _ _ _ hp)
        (by rw [encodeNum_length]; exact hsplice), hwipe]

theorem claim_C8_frame_witness :
    (delete_aperio_label 8 wFile true).1[30]? = wFile[30]? :=
  @claim_C8_frame 8 wFile true false 4 [wDir0] [wDir2] wDir1 wEo wEl [120] [8] true
    (by decide) (by decide) (by decide) (by decide) (by decide) (by decide)
    (by decide) (by decide) 30 (by decide) (by decide) (by decide)

theorem claim_C2_unlink_rewalk_witness :
    readUInt true (delete_aperio_label 8 wFile true).1 22 4 =
      readUInt true wFile 64 4 ∧
    openTiff 8 (delete_aperio_label 8 wFile true).1 =
      .ok ⟨true, false, [wDir0, { wDir2 with in_pointer_offset := 22 }]⟩ := by
  have h := @claim_C2_unlink_rewalk 8 wFile true false 4 [wDir0] [wDir2] wDir1 wEo wEl
    [120] [8] (by decide) (by decide) (by decide) (by decide) (by decide) (by decide)
    (by decide) (by decide) (by decide) (by decide) (by decide) (by decide)
  exact ⟨h.1, h.2.1⟩

end SvsAnon
